import Mathlib

/-!
Verification development for the MCTS chess-engine core of this repository.

The definitions below are a shallow embedding of the JavaScript source
(`lc0-alphazero-top-tier-PATCHED.wasm.js`, the canonical variant cited by the
spec; the other files reimplement the same classes).  JS numbers are modelled
as `ℚ` (the engine only ever produces finite values on the paths we verify);
transcendental library calls (`Math.sqrt`, `Math.exp`, `Math.pow`,
`Math.tanh`), the `Math.random` stream and the randomly-initialised Zobrist
tables are threaded as explicit parameters, so every statement quantifies over
them.  `Evaluator.normalizeValue` is additionally given its real-number form
(`Real.tanh`) where a claim is about its analytic bound.
-/

namespace LC0

/-- The `MATE_SCORE` constant of the source.  (Piece codes are the `PIECES`
table of the source: 0 empty, 1-6 white pawn..king, 7-12 black pawn..king.) -/
def MATE_SCORE : ℚ := 50000

/-- `MCTS_CONFIG` from the PATCHED source (exact decimal values as rationals). -/
structure MCTSConfig where
  simulations : ℕ
  cPuct : ℚ
  temperature : ℚ
  dirichletAlpha : ℚ
  dirichletEpsilon : ℚ
  virtualLoss : ℚ
  minVisitsForExpansion : ℕ
  endgameSimulations : ℕ
  endgamePieceThreshold : ℕ
  endgameCPuct : ℚ
  useSEE : Bool
  seeThreshold : ℤ

/-- The configuration object of the PATCHED source, field for field. -/
def cfg : MCTSConfig :=
  { simulations := 2000
    cPuct := 9/5                 -- 1.8
    temperature := 1/20          -- 0.05
    dirichletAlpha := 3/10       -- 0.3
    dirichletEpsilon := 1/4      -- 0.25
    virtualLoss := 3
    minVisitsForExpansion := 1
    endgameSimulations := 2500
    endgamePieceThreshold := 12
    endgameCPuct := 2
    useSEE := true
    seeThreshold := -50 }

/-- `board.castling` record. -/
structure CastlingRights where
  wk : Bool
  wq : Bool
  bk : Bool
  bq : Bool
deriving Repr, DecidableEq

/-- The four castle tags used as `move.castle` strings in the source
(`'wk'/'wq'/'bk'/'bq'`); `cnone` is the absent (falsy) field. -/
inductive CastleTag where
  | cnone | cwk | cwq | cbk | cbq
deriving Repr, DecidableEq

/-- A move object `{from, to, promotion?, castle?}`; `promotion = 0` models the
absent (falsy) promotion field, `castle = cnone` the absent castle field. -/
structure Move where
  fromSq : ℕ
  toSq : ℕ
  promotion : ℕ
  castle : CastleTag
deriving Repr, DecidableEq

/-- A plain (non-promotion, non-castle) move push `{from, to}`. -/
def mkMove (f t : ℕ) : Move := ⟨f, t, 0, CastleTag.cnone⟩

/-- The `Board` class state: 64 squares, side to move (1 white / -1 black),
castling rights, en-passant square (-1 sentinel), move clocks, cached king
squares and the incrementally maintained Zobrist hash. -/
structure Board where
  squares : List ℕ
  turn : ℤ
  castling : CastlingRights
  enPassant : ℤ
  halfmove : ℕ
  fullmove : ℕ
  kingsWhite : ℤ
  kingsBlack : ℤ
  hash : ℕ
deriving Repr, DecidableEq

/-- `Board.isWhite`. -/
def isWhite (p : ℕ) : Bool := 1 ≤ p && p ≤ 6

/-- `Board.isBlack`. -/
def isBlack (p : ℕ) : Bool := 7 ≤ p && p ≤ 12

/-- `Board.isOwnPiece`. -/
def isOwnPiece (b : Board) (p : ℕ) : Bool :=
  if b.turn = 1 then isWhite p else isBlack p

/-- `Board.isEnemyPiece`. -/
def isEnemyPiece (b : Board) (p : ℕ) : Bool :=
  if b.turn = 1 then isBlack p else isWhite p

/-- `Board.getPieceType`: 0 for empty, else `((piece-1) % 6) + 1`. -/
def getPieceType (p : ℕ) : ℕ := if p = 0 then 0 else (p - 1) % 6 + 1

/-- Write a square by JS index; an out-of-range JS index writes an expando
property that the 0-63 reads never see, hence the no-op branch. -/
def setSq (squares : List ℕ) (i : ℤ) (v : ℕ) : List ℕ :=
  if 0 ≤ i ∧ i < 64 then squares.set i.toNat v else squares

/-- The randomly initialised Zobrist tables (module-level `ZobristHash`
instance); only the parts `makeMove` reads are needed. -/
structure Zobrist where
  pieces : ℕ → ℕ → ℕ
  sideToMove : ℕ

/-- An all-zero Zobrist table (hash updates become no-ops), used to instantiate
witnesses; every theorem quantifies over the table. -/
def Z0 : Zobrist := ⟨fun _ _ => 0, 0⟩

/-- `Board.makeMove`, line for line: hash updates, piece movement, king cache,
castle rook relocation, castling-rights clearing, en-passant bookkeeping
(including the source's dead `move.to === this.enPassant` branch, which
compares against the just-reset field), turn flip and move clocks. -/
def makeMove (Z : Zobrist) (b : Board) (m : Move) : Board :=
  let piece := b.squares.getD m.fromSq 0
  let target := b.squares.getD m.toSq 0
  let h1 := Nat.xor b.hash (Z.pieces piece m.fromSq)
  let h2 := if target ≠ 0 then Nat.xor h1 (Z.pieces target m.toSq) else h1
  let newToPiece := if m.promotion ≠ 0 then m.promotion else piece
  let sq1 := (b.squares.set m.fromSq 0).set m.toSq newToPiece
  let h3 := Nat.xor h2 (Z.pieces newToPiece m.toSq)
  let kw := if getPieceType piece = 6 ∧ b.turn = 1 then (m.toSq : ℤ) else b.kingsWhite
  let kb := if getPieceType piece = 6 ∧ b.turn ≠ 1 then (m.toSq : ℤ) else b.kingsBlack
  let sq2 := match m.castle with
    | CastleTag.cnone => sq1
    | CastleTag.cwk => (sq1.set 5 4).set 7 0
    | CastleTag.cwq => (sq1.set 3 4).set 0 0
    | CastleTag.cbk => (sq1.set 61 10).set 63 0
    | CastleTag.cbq => (sq1.set 59 10).set 56 0
  let cr0 := b.castling
  let cr1 := if getPieceType piece = 6 then
      (if b.turn = 1 then { cr0 with wk := false, wq := false }
       else { cr0 with bk := false, bq := false })
    else cr0
  let cr2 := if m.fromSq = 0 ∨ m.toSq = 0 then { cr1 with wq := false } else cr1
  let cr3 := if m.fromSq = 7 ∨ m.toSq = 7 then { cr2 with wk := false } else cr2
  let cr4 := if m.fromSq = 56 ∨ m.toSq = 56 then { cr3 with bq := false } else cr3
  let cr5 := if m.fromSq = 63 ∨ m.toSq = 63 then { cr4 with bk := false } else cr4
  let ep0 : ℤ := -1
  let epSq : ℤ × List ℕ :=
    if getPieceType piece = 1 then
      let ep1 := if ((m.fromSq : ℤ) - (m.toSq : ℤ)).natAbs = 16
        then ((m.fromSq : ℤ) + (m.toSq : ℤ)) / 2 else ep0
      if (m.toSq : ℤ) = ep1 then
        let capSq : ℤ := if b.turn = 1 then (m.toSq : ℤ) + 8 else (m.toSq : ℤ) - 8
        (ep1, setSq sq2 capSq 0)
      else (ep1, sq2)
    else (ep0, sq2)
  let newTurn := b.turn * (-1)
  let h4 := Nat.xor h3 Z.sideToMove
  { squares := epSq.2
    turn := newTurn
    castling := cr5
    enPassant := epSq.1
    halfmove := b.halfmove + 1
    fullmove := if newTurn = 1 then b.fullmove + 1 else b.fullmove
    kingsWhite := kw
    kingsBlack := kb
    hash := h4 }

/-- One ray of `Board.isSquareAttacked`'s sliding-piece scan; `fuel = 8`
suffices for any start square on the board (each step moves one rank/file and
the scan stops at the first edge or occupied square, exactly as the source's
`while (true)` loop). -/
def slideAttack (b : Board) (bySide : ℤ) (dr df : ℤ) : ℤ → ℤ → ℕ → Bool
  | _, _, 0 => false
  | r, f, fuel + 1 =>
    let r' := r + dr
    let f' := f + df
    if r' < 0 ∨ 8 ≤ r' ∨ f' < 0 ∨ 8 ≤ f' then false
    else
      let piece := b.squares.getD (r' * 8 + f').toNat 0
      if piece ≠ 0 then
        if (bySide = 1 ∧ isWhite piece) ∨ (bySide = -1 ∧ isBlack piece) then
          let ty := getPieceType piece
          decide (ty = 5 ∨ (ty = 3 ∧ dr ≠ 0 ∧ df ≠ 0) ∨ (ty = 4 ∧ (dr = 0 ∨ df = 0)))
        else false
      else slideAttack b bySide dr df r' f' fuel

/-- `Board.isSquareAttacked(sq, by)`: `by = 1` asks whether any WHITE piece
attacks `sq`, `by = -1` whether any black piece does (faithful to the source,
including the absence of a file-wrap guard on the knight and king offsets). -/
def isSquareAttacked (b : Board) (sq : ℤ) (bySide : ℤ) : Bool :=
  let pawnDir : ℤ := if bySide = 1 then -1 else 1
  let pawnLeft := sq + pawnDir * 8 - 1
  let pawnRight := sq + pawnDir * 8 + 1
  let pawn : ℕ := if bySide = 1 then 1 else 7
  if (0 ≤ pawnLeft ∧ pawnLeft < 64 ∧ b.squares.getD pawnLeft.toNat 0 = pawn) ∨
     (0 ≤ pawnRight ∧ pawnRight < 64 ∧ b.squares.getD pawnRight.toNat 0 = pawn) then true
  else
    let knight : ℕ := if bySide = 1 then 2 else 8
    if ([-17, -15, -10, -6, 6, 10, 15, 17] : List ℤ).any (fun o =>
        decide (0 ≤ sq + o ∧ sq + o < 64 ∧ b.squares.getD (sq + o).toNat 0 = knight)) then true
    else
      let king : ℕ := if bySide = 1 then 6 else 12
      if ([-9, -8, -7, -1, 1, 7, 8, 9] : List ℤ).any (fun o =>
          decide (0 ≤ sq + o ∧ sq + o < 64 ∧ b.squares.getD (sq + o).toNat 0 = king)) then true
      else
        ([((1:ℤ),(0:ℤ)), (-1,0), (0,1), (0,-1), (1,1), (1,-1), (-1,1), (-1,-1)]).any
          (fun d => slideAttack b bySide d.1 d.2 (sq / 8) (sq % 8) 8)

/-- `SEE.getPieceValue`. -/
def getPieceValue (ty : ℕ) : ℤ := ([0, 100, 320, 330, 500, 900, 20000] : List ℤ).getD ty 0

/-- `SEE.evaluate`: `gain = value(victim)`, apply the move on a clone, and
subtract `value(attacker)` when `isSquareAttacked(to, -tempBoard.turn)` holds.
Note `-tempBoard.turn` is the side that just MOVED (the turn was flipped by
`makeMove`), i.e. the source tests whether the destination is attacked by the
capturing side, not by the enemy. -/
def SEE.evaluate (Z : Zobrist) (b : Board) (m : Move) : ℤ :=
  let attacker := b.squares.getD m.fromSq 0
  let victim := b.squares.getD m.toSq 0
  if victim = 0 then 0
  else
    let gain := getPieceValue (getPieceType victim)
    let tempBoard := makeMove Z b m
    if isSquareAttacked tempBoard (m.toSq : ℤ) (-tempBoard.turn) then
      gain - getPieceValue (getPieceType attacker)
    else gain

/-- `SEE.isCaptureSafe`: safe iff `evaluate ≥ MCTS_CONFIG.seeThreshold` (-50). -/
def SEE.isCaptureSafe (Z : Zobrist) (b : Board) (m : Move) : Bool :=
  cfg.seeThreshold ≤ SEE.evaluate Z b m

/-- The four promotion pieces pushed by the pawn generator, by side. -/
def promoPieces (turn : ℤ) : List ℕ := if turn = 1 then [5, 4, 3, 2] else [11, 10, 9, 8]

/-- `MoveGenerator.generatePawnMoves` (forward/double pushes, the two capture
files, promotions, en-passant target check), in source push order.  The
source's unguarded `squares[doublePush]` read is only reached with the pawn on
its start rank, where the index is always on the board, so the guarded read is
equivalent. -/
def genPawnMoves (b : Board) (sq : ℕ) (capturesOnly : Bool) : List Move :=
  let dir : ℤ := if b.turn = 1 then -8 else 8
  let startRank : ℕ := if b.turn = 1 then 6 else 1
  let promoRank : ℕ := if b.turn = 1 then 1 else 6
  let rank := sq / 8
  let file := sq % 8
  let forwardPart : List Move :=
    if capturesOnly then []
    else
      let forward : ℤ := (sq : ℤ) + dir
      if 0 ≤ forward ∧ forward < 64 ∧ b.squares.getD forward.toNat 0 = 0 then
        if forward.toNat / 8 = promoRank then
          (promoPieces b.turn).map (fun pr => ⟨sq, forward.toNat, pr, CastleTag.cnone⟩)
        else
          [mkMove sq forward.toNat] ++
            (if rank = startRank then
              let doublePush : ℤ := (sq : ℤ) + dir * 2
              if 0 ≤ doublePush ∧ doublePush < 64 ∧ b.squares.getD doublePush.toNat 0 = 0 then
                [mkMove sq doublePush.toNat]
              else []
            else [])
      else []
  let capturePart : List Move :=
    ([dir - 1, dir + 1]).foldl (fun acc capDir =>
      let tSq : ℤ := (sq : ℤ) + capDir
      if tSq < 0 ∨ 64 ≤ tSq then acc
      else
        let toFile := tSq % 8
        if ((file : ℤ) - toFile).natAbs ≠ 1 then acc
        else if isEnemyPiece b (b.squares.getD tSq.toNat 0) ∨ tSq = b.enPassant then
          if tSq.toNat / 8 = promoRank then
            acc ++ (promoPieces b.turn).map (fun pr => ⟨sq, tSq.toNat, pr, CastleTag.cnone⟩)
          else acc ++ [mkMove sq tSq.toNat]
        else acc) []
  forwardPart ++ capturePart

/-- `MoveGenerator.generateKnightMoves` (with the source's rank/file-distance
wrap guard). -/
def genKnightMoves (b : Board) (sq : ℕ) (capturesOnly : Bool) : List Move :=
  ([-17, -15, -10, -6, 6, 10, 15, 17] : List ℤ).foldl (fun acc o =>
    let tSq : ℤ := (sq : ℤ) + o
    if tSq < 0 ∨ 64 ≤ tSq then acc
    else if 2 < ((sq : ℤ) / 8 - tSq / 8).natAbs ∨ 2 < ((sq : ℤ) % 8 - tSq % 8).natAbs then acc
    else
      let target := b.squares.getD tSq.toNat 0
      if ¬capturesOnly ∧ target = 0 then acc ++ [mkMove sq tSq.toNat]
      else if isEnemyPiece b target then acc ++ [mkMove sq tSq.toNat]
      else acc) []

/-- One ray of `MoveGenerator.generateSlidingMoves`; as in `slideAttack`,
`fuel = 8` reproduces the source's unbounded scan from any on-board start. -/
def slideMoves (b : Board) (sq : ℕ) (dr df : ℤ) (capturesOnly : Bool) :
    ℤ → ℤ → ℕ → List Move
  | _, _, 0 => []
  | r, f, fuel + 1 =>
    let r' := r + dr
    let f' := f + df
    if r' < 0 ∨ 8 ≤ r' ∨ f' < 0 ∨ 8 ≤ f' then []
    else
      let tSq := (r' * 8 + f').toNat
      let target := b.squares.getD tSq 0
      if target = 0 then
        (if capturesOnly then [] else [mkMove sq tSq]) ++
          slideMoves b sq dr df capturesOnly r' f' fuel
      else if isEnemyPiece b target then [mkMove sq tSq]
      else []

/-- `MoveGenerator.generateSlidingMoves` over a direction list. -/
def genSlidingMoves (b : Board) (sq : ℕ) (dirs : List (ℤ × ℤ)) (capturesOnly : Bool) :
    List Move :=
  dirs.foldl (fun acc d =>
    acc ++ slideMoves b sq d.1 d.2 capturesOnly ((sq : ℤ) / 8) ((sq : ℤ) % 8) 8) []

/-- `MoveGenerator.generateKingMoves` including the castling pushes (note the
source generates white castling from rank 7 / squares 58-62 while `makeMove`
relocates rooks on squares 0-7; both are embedded as written). -/
def genKingMoves (b : Board) (sq : ℕ) (capturesOnly : Bool) : List Move :=
  let stepPart :=
    ([-9, -8, -7, -1, 1, 7, 8, 9] : List ℤ).foldl (fun acc o =>
      let tSq : ℤ := (sq : ℤ) + o
      if tSq < 0 ∨ 64 ≤ tSq then acc
      else if 1 < ((sq : ℤ) / 8 - tSq / 8).natAbs ∨ 1 < ((sq : ℤ) % 8 - tSq % 8).natAbs then acc
      else
        let target := b.squares.getD tSq.toNat 0
        if ¬capturesOnly ∧ target = 0 then acc ++ [mkMove sq tSq.toNat]
        else if isEnemyPiece b target then acc ++ [mkMove sq tSq.toNat]
        else acc) []
  let castlePart : List Move :=
    if capturesOnly then []
    else if b.turn = 1 ∧ sq / 8 = 7 ∧ sq % 8 = 4 then
      (if b.castling.wk ∧ b.squares.getD 61 0 = 0 ∧ b.squares.getD 62 0 = 0 then
        [⟨sq, 62, 0, CastleTag.cwk⟩] else []) ++
      (if b.castling.wq ∧ b.squares.getD 59 0 = 0 ∧ b.squares.getD 58 0 = 0 ∧
          b.squares.getD 57 0 = 0 then [⟨sq, 58, 0, CastleTag.cwq⟩] else [])
    else if b.turn = -1 ∧ sq / 8 = 0 ∧ sq % 8 = 4 then
      (if b.castling.bk ∧ b.squares.getD 5 0 = 0 ∧ b.squares.getD 6 0 = 0 then
        [⟨sq, 6, 0, CastleTag.cbk⟩] else []) ++
      (if b.castling.bq ∧ b.squares.getD 3 0 = 0 ∧ b.squares.getD 2 0 = 0 ∧
          b.squares.getD 1 0 = 0 then [⟨sq, 2, 0, CastleTag.cbq⟩] else [])
    else []
  stepPart ++ castlePart

/-- `MoveGenerator.generate`: scan squares 0..63, dispatch on the piece type of
own pieces, concatenating each generator's pushes in order. -/
def generate (b : Board) (capturesOnly : Bool) : List Move :=
  (List.range 64).foldl (fun moves sq =>
    let piece := b.squares.getD sq 0
    if isOwnPiece b piece then
      moves ++ (match getPieceType piece with
        | 1 => genPawnMoves b sq capturesOnly
        | 2 => genKnightMoves b sq capturesOnly
        | 3 => genSlidingMoves b sq [(1,1), (1,-1), (-1,1), (-1,-1)] capturesOnly
        | 4 => genSlidingMoves b sq [(1,0), (-1,0), (0,1), (0,-1)] capturesOnly
        | 5 => genSlidingMoves b sq
            [(1,0), (-1,0), (0,1), (0,-1), (1,1), (1,-1), (-1,1), (-1,-1)] capturesOnly
        | 6 => genKingMoves b sq capturesOnly
        | _ => [])
    else moves) []

/-- `PolicyNetwork.getMovePolicy` with `Math.exp` threaded as `expf`.  Each
move's heuristic score is accumulated exactly as in the source (SEE discount or
bonus, capture bonus, promotion, centre control, development, castling), then
softmax-normalised; the source's unused `attackerValue` binding is omitted. -/
def getMovePolicy (Z : Zobrist) (expf : ℚ → ℚ) (b : Board) (moves : List Move) : List ℚ :=
  let scores := moves.map (fun m =>
    let score : ℚ := 1
    let piece := b.squares.getD m.fromSq 0
    let pieceType := getPieceType piece
    let target := b.squares.getD m.toSq 0
    let targetType := getPieceType target
    let score := if cfg.useSEE ∧ 0 < targetType then
        let see := SEE.evaluate Z b m
        if see < cfg.seeThreshold then score * (1/100)
        else score + (see : ℚ) / 100
      else score
    let score := if 0 < targetType then
        score + 3 + ([0, 1, 3, 3, 5, 9, 0] : List ℚ).getD targetType 0
      else score
    let score := if m.promotion ≠ 0 then score + 10 else score
    let score := if 2 ≤ m.toSq / 8 ∧ m.toSq / 8 ≤ 5 ∧ 2 ≤ m.toSq % 8 ∧ m.toSq % 8 ≤ 5 then
        score + 3/2
      else score
    let score := if b.fullmove < 12 ∧ (pieceType = 2 ∨ pieceType = 3) ∧
        ((b.turn = 1 ∧ m.fromSq / 8 = 7) ∨ (b.turn = -1 ∧ m.fromSq / 8 = 0)) then
        score + 5/2
      else score
    let score := if m.castle ≠ CastleTag.cnone then score + 4 else score
    expf score)
  let totalScore := scores.foldl (· + ·) 0
  scores.map (fun s => s / totalScore)

/-- The scalar fields of an `MCTSNode` (`this.board`, `this.move`,
`this.prior`, `this.visitCount`, `this.totalValue`, `this.virtualLoss`,
`this.isExpanded`, `this.isTerminal`, `this.terminalValue`); the `parent`
back-reference of the source is represented implicitly by the tree structure
and index paths, and `children` lives in the tree constructor. -/
structure NodeData where
  board : Board
  move : Option Move
  prior : ℚ
  visitCount : ℕ
  totalValue : ℚ
  virtualLoss : ℕ
  isExpanded : Bool
  isTerminal : Bool
  terminalValue : ℚ
deriving Repr, DecidableEq

/-- The `MCTSNode` tree: scalar fields plus the ordered `children` array. -/
inductive MCTSNode where
  | node : NodeData → List MCTSNode → MCTSNode

/-- Scalar fields of a tree node. -/
def MCTSNode.data : MCTSNode → NodeData
  | .node d _ => d

/-- `this.children`. -/
def MCTSNode.children : MCTSNode → List MCTSNode
  | .node _ ch => ch

/-- `this.visitCount`. -/
def MCTSNode.visitCount (t : MCTSNode) : ℕ := t.data.visitCount

/-- `this.totalValue`. -/
def MCTSNode.totalValue (t : MCTSNode) : ℚ := t.data.totalValue

/-- `this.virtualLoss`. -/
def MCTSNode.virtualLoss (t : MCTSNode) : ℕ := t.data.virtualLoss

/-- `this.prior`. -/
def MCTSNode.prior (t : MCTSNode) : ℚ := t.data.prior

/-- `this.board`. -/
def MCTSNode.board (t : MCTSNode) : Board := t.data.board

/-- `this.move`. -/
def MCTSNode.move (t : MCTSNode) : Option Move := t.data.move

/-- `this.isExpanded`. -/
def MCTSNode.isExpanded (t : MCTSNode) : Bool := t.data.isExpanded

/-- `this.isTerminal`. -/
def MCTSNode.isTerminal (t : MCTSNode) : Bool := t.data.isTerminal

/-- `this.terminalValue`. -/
def MCTSNode.terminalValue (t : MCTSNode) : ℚ := t.data.terminalValue

/-- `new MCTSNode(board, parent, move, prior)`: all statistics zero, flags
false, no children. -/
def newMCTSNode (board : Board) (move : Option Move) (prior : ℚ) : MCTSNode :=
  .node { board := board, move := move, prior := prior, visitCount := 0, totalValue := 0,
          virtualLoss := 0, isExpanded := false, isTerminal := false, terminalValue := 0 } []

/-- `new MCTSNode(board)` with default arguments (the fresh root). -/
def freshNode (board : Board) : MCTSNode := newMCTSNode board none 0

/-- `MCTSNode.getQ`: `0` when `visitCount === 0`, else
`(totalValue - virtualLoss * L) / (visitCount + virtualLoss)` with
`L = MCTS_CONFIG.virtualLoss`. -/
def getQ (t : MCTSNode) : ℚ :=
  if t.visitCount = 0 then 0
  else (t.totalValue - (t.virtualLoss : ℚ) * cfg.virtualLoss) /
    ((t.visitCount : ℚ) + (t.virtualLoss : ℚ))

/-- The dynamic `c_puct` of `MCTSNode.getU`: the endgame constant when this
node's board has fewer than `endgamePieceThreshold` pieces. -/
def cPuctOf (b : Board) : ℚ :=
  if (b.squares.filter (fun p => decide (p ≠ 0))).length < cfg.endgamePieceThreshold then
    cfg.endgameCPuct
  else cfg.cPuct

/-- `MCTSNode.getU(parentVisits)` with `Math.sqrt` threaded as `sqrtf`:
`cPuct * prior * sqrt(parentVisits) / (1 + visitCount)`. -/
def getU (sqrtf : ℚ → ℚ) (t : MCTSNode) (parentVisits : ℕ) : ℚ :=
  cPuctOf t.board * t.prior * sqrtf (parentVisits : ℚ) / (1 + (t.visitCount : ℚ))

/-- `MCTSNode.getPUCT(parentVisits) = getQ() + getU(parentVisits)`. -/
def getPUCT (sqrtf : ℚ → ℚ) (t : MCTSNode) (parentVisits : ℕ) : ℚ :=
  getQ t + getU sqrtf t parentVisits

/-- The body of `selectChild`'s loop, carrying `bestChild`, `bestValue` and its
index plus the running index; a new child is taken only on a strictly greater
score, so the earliest maximiser is kept.  The invariant `bestValue = g best`
holds at every call site, so `bestValue` is passed as `g best`. -/
def selectLoop (g : MCTSNode → ℚ) (best : MCTSNode) (bestIdx curIdx : ℕ) :
    List MCTSNode → MCTSNode × ℕ
  | [] => (best, bestIdx)
  | c :: rest =>
    if g best < g c then selectLoop g c curIdx (curIdx + 1) rest
    else selectLoop g best bestIdx (curIdx + 1) rest

/-- `MCTSNode.selectChild`: scan `children`, keeping the first child whose
`getPUCT(this.visitCount)` strictly exceeds the best so far; `null` on an empty
children array (the JS loop starts from `bestValue = -Infinity`, so the first
child always replaces the initial `null`). -/
def selectChild (sqrtf : ℚ → ℚ) (t : MCTSNode) : Option MCTSNode :=
  match t.children with
  | [] => none
  | c :: rest => some (selectLoop (fun c' => getPUCT sqrtf c' t.visitCount) c 0 1 rest).1

/-- Index of the child `selectChild` returns (0 on an empty children array);
used to record selection paths. -/
def selectChildIdx (sqrtf : ℚ → ℚ) (t : MCTSNode) : ℕ :=
  match t.children with
  | [] => 0
  | c :: rest => (selectLoop (fun c' => getPUCT sqrtf c' t.visitCount) c 0 1 rest).2

/-- `MCTSNode.backpropagate(value)` in its source shape: the argument list is
the chain leaf → parent → ... → root (each entry the scalar state of one node
on the recorded selection path); each node gets `visitCount += 1`,
`totalValue += value`, and the recursive call on the parent receives `-value`. -/
def backpropagate (value : ℚ) : List NodeData → List NodeData
  | [] => []
  | n :: ancestors =>
    { n with visitCount := n.visitCount + 1, totalValue := n.totalValue + value } ::
      backpropagate (-value) ancestors

/-- The body of `getBestMove`'s temperature-0 loop: keep the first child with a
strictly larger `visitCount`. -/
def bestVisitLoop (best : MCTSNode) : List MCTSNode → MCTSNode
  | [] => best
  | c :: rest =>
    if best.visitCount < c.visitCount then bestVisitLoop c rest
    else bestVisitLoop best rest

/-- The sampling loop of `getBestMove` for `temperature > 0`: subtract each
weight from `rand` and return the first child at which `rand ≤ 0`; the source
falls back to the last child's move after the loop. -/
def pickMove (fallback : Option Move) : ℚ → List (MCTSNode × ℚ) → Option Move
  | _, [] => fallback
  | rand, (c, w) :: rest =>
    if rand - w ≤ 0 then c.move else pickMove fallback (rand - w) rest

/-- `MCTSNode.getBestMove(temperature)` with `Math.pow` threaded as `powf` and
the single `Math.random()` draw as `rng`: `null` on no children; at temperature
0 the first most-visited child's move; otherwise sample proportionally to
`visitCount ^ (1/temperature)`. -/
def getBestMove (powf : ℚ → ℚ → ℚ) (rng : ℚ) (t : MCTSNode) (temperature : ℚ) :
    Option Move :=
  match t.children with
  | [] => none
  | c :: _ =>
    if temperature = 0 then (bestVisitLoop c t.children).move
    else
      let visits := t.children.map (fun ch => powf (ch.visitCount : ℚ) (1 / temperature))
      let sum := visits.foldl (· + ·) 0
      let fallback := match t.children.getLast? with
        | some lastc => lastc.move
        | none => none
      pickMove fallback (rng * sum) (t.children.zip visits)

/-- `MCTSNode.expand()`: a no-op when already expanded; with no legal moves the
node becomes terminal with `terminalValue = -MATE_SCORE`; otherwise one child
per move is pushed (board clone + `makeMove`, prior from the policy) and
`isExpanded` is set. -/
def expand (Z : Zobrist) (expf : ℚ → ℚ) : MCTSNode → MCTSNode
  | .node d ch =>
    if d.isExpanded then .node d ch
    else
      let moves := generate d.board false
      if moves.isEmpty then
        .node { d with isTerminal := true, terminalValue := -MATE_SCORE } ch
      else
        let priors := getMovePolicy Z expf d.board moves
        let newChildren := (moves.zip priors).map
          (fun mp => newMCTSNode (makeMove Z d.board mp.1) (some mp.1) mp.2)
        .node { d with isExpanded := true } (ch ++ newChildren)

/-- `MCTSNode.addDirichletNoise()`: draw one `Math.pow(Math.random(), 1/α)`
noise term per child (`rands i` is the i-th `Math.random()` draw), normalise
the noise vector by its sum, and blend each prior as
`(1-ε) * prior + ε * noise`. -/
def addDirichletNoise (powf : ℚ → ℚ → ℚ) (rands : ℕ → ℚ) : MCTSNode → MCTSNode
  | .node d ch =>
    if ch.isEmpty then .node d ch
    else
      let noise := (List.range ch.length).map (fun i => powf (rands i) (1 / cfg.dirichletAlpha))
      let sum := noise.foldl (· + ·) 0
      let ch' := (ch.zip noise).map (fun cn =>
        match cn.1 with
        | .node dc chc =>
          .node { dc with prior := (1 - cfg.dirichletEpsilon) * dc.prior +
              cfg.dirichletEpsilon * (cn.2 / sum) } chc)
      .node d ch'

/-- Replace the `i`-th element of a list by `f` of it (no-op out of range);
used to update one child in a children array. -/
def modifyIdx (f : α → α) : List α → ℕ → List α
  | [], _ => []
  | a :: l, 0 => f a :: l
  | a :: l, i + 1 => a :: modifyIdx f l i

/-- Look up the node at an index path (child indices from the root). -/
def getNodeAt : MCTSNode → List ℕ → Option MCTSNode
  | t, [] => some t
  | .node _ ch, i :: p =>
    match ch.get? i with
    | some c => getNodeAt c p
    | none => none

/-- Apply `f` to the node at an index path (no-op when the path dangles). -/
def modifyAt (f : MCTSNode → MCTSNode) : MCTSNode → List ℕ → MCTSNode
  | t, [] => f t
  | .node d ch, i :: p => .node d (modifyIdx (fun c => modifyAt f c p) ch i)

/-- The functional form of the chain of `backpropagate` calls issued by one
simulation: `path` is the index path from this node down to the leaf the value
was produced at; a node with `j` path edges below it receives
`visitCount += 1` and `totalValue += value * (-1)^j` (the sign flips once per
parent step of the source recursion). -/
def backpropPath (value : ℚ) : MCTSNode → List ℕ → MCTSNode
  | .node d ch, [] =>
    .node { d with visitCount := d.visitCount + 1, totalValue := d.totalValue + value } ch
  | .node d ch, i :: p =>
    .node
      { d with
        visitCount := d.visitCount + 1
        totalValue := d.totalValue + value * (-1) ^ (p.length + 1) }
      (modifyIdx (fun c => backpropPath value c p) ch i)

/-- `visitCount` of the node at a path, 0 when no node exists there. -/
def visitCountAt (t : MCTSNode) (p : List ℕ) : ℕ :=
  match getNodeAt t p with
  | some n => n.visitCount
  | none => 0

/-- Size of the children list is below the node's size (termination measure
for the selection descent). -/
theorem MCTSNode.sizeOf_children_lt (t : MCTSNode) : sizeOf t.children < sizeOf t := by
  cases t with
  | node d ch => simp [MCTSNode.children]

mutual
/-- Number of nodes of a tree (the fuel bound for the selection walk). -/
def MCTSNode.size : MCTSNode → ℕ
  | .node _ ch => 1 + MCTSNode.sizeL ch
/-- Number of nodes of a forest. -/
def MCTSNode.sizeL : List MCTSNode → ℕ
  | [] => 0
  | c :: cs => MCTSNode.size c + MCTSNode.sizeL cs
end

/-- The selection phase of `runSimulation`, fuelled so that the recursion is
structural (and hence computes): starting at this node, while
`node.isExpanded && node.children.length > 0`, descend into `selectChild()`
and record its index.  (`selectChild` cannot return `null` on a non-empty
children array, as its own match shows.) -/
def selectPathFuel (sqrtf : ℚ → ℚ) : ℕ → MCTSNode → List ℕ
  | 0, _ => []
  | fuel + 1, t =>
    if t.isExpanded = true ∧ t.children.isEmpty = false then
      match t.children.get? (selectChildIdx sqrtf t) with
      | some c => selectChildIdx sqrtf t :: selectPathFuel sqrtf fuel c
      | none => []
    else []

/-- The selection walk with its always-sufficient fuel `t.size`: each step
descends into a strictly smaller subtree, so the walk stops at a
non-continuing node strictly before the fuel runs out
(`selectPath_stops_at_leaf` below). -/
def selectPath (sqrtf : ℚ → ℚ) (t : MCTSNode) : List ℕ :=
  selectPathFuel sqrtf t.size t

/-- The pre-backpropagation phase of `MCTSEngine.runSimulation`, returning the
tree after the (possible) expansion together with the index path of the node
`backpropagate` is called on and the value passed to it:
selection descends `selectPath`; a terminal leaf backpropagates its
`terminalValue`; a visited-enough unexpanded leaf is expanded (terminal again
if expansion found no moves; otherwise the walk steps into `children[0]`);
whatever node the walk stops at backpropagates `evaluatePosition(node.board)`,
threaded as `evalf`. -/
def simStep (Z : Zobrist) (sqrtf expf : ℚ → ℚ) (evalf : Board → ℚ) (t : MCTSNode) :
    MCTSNode × List ℕ × ℚ :=
  match getNodeAt t (selectPath sqrtf t) with
  | none => (t, selectPath sqrtf t, 0)
  | some nd =>
    if nd.isTerminal then (t, selectPath sqrtf t, nd.terminalValue)
    else if cfg.minVisitsForExpansion ≤ nd.visitCount ∧ nd.isExpanded = false then
      match getNodeAt (modifyAt (expand Z expf) t (selectPath sqrtf t)) (selectPath sqrtf t) with
      | none => (modifyAt (expand Z expf) t (selectPath sqrtf t), selectPath sqrtf t, 0)
      | some nd' =>
        if nd'.isTerminal then
          (modifyAt (expand Z expf) t (selectPath sqrtf t), selectPath sqrtf t,
            nd'.terminalValue)
        else
          match nd'.children.head? with
          | some c0 => (modifyAt (expand Z expf) t (selectPath sqrtf t),
              selectPath sqrtf t ++ [0], evalf c0.board)
          | none => (modifyAt (expand Z expf) t (selectPath sqrtf t), selectPath sqrtf t,
              evalf nd'.board)
    else (t, selectPath sqrtf t, evalf nd.board)

/-- `MCTSEngine.runSimulation()`: the `simStep` phase followed by the
`node.backpropagate(value)` call along the recorded path. -/
def runSimulation (Z : Zobrist) (sqrtf expf : ℚ → ℚ) (evalf : Board → ℚ)
    (t : MCTSNode) : MCTSNode :=
  backpropPath (simStep Z sqrtf expf evalf t).2.2 (simStep Z sqrtf expf evalf t).1
    (simStep Z sqrtf expf evalf t).2.1

/-- The root-initialisation step of `MCTSEngine.search`:
`if (!this.root || this.root.board.hash !== board.hash) this.root = new
MCTSNode(board)` — the previous tree is kept only when its root's fingerprint
equals the new position's; there is no lookup among the root's children. -/
def initRoot (prevRoot : Option MCTSNode) (board : Board) : MCTSNode :=
  match prevRoot with
  | none => freshNode board
  | some r => if r.board.hash ≠ board.hash then freshNode board else r

/-- The external inputs of one `search` call: the Zobrist table and the
library/random/clock functions the source reads from its environment
(`Math.sqrt`, `Math.exp`, the evaluator composite
`normalizeValue ∘ evaluate`, `Math.pow`, the `Math.random()` draw used by
`getBestMove`, the `Math.random()` stream used by the Dirichlet noise,
`this.stopSearch` sampled at each loop head, `Date.now()` at entry and at each
loop head). -/
structure SearchEnv where
  Z : Zobrist
  sqrtf : ℚ → ℚ
  expf : ℚ → ℚ
  evalf : Board → ℚ
  powf : ℚ → ℚ → ℚ
  rng : ℚ
  rands : ℕ → ℚ
  stopFlag : ℕ → Bool
  startTime : ℚ
  clock : ℕ → ℚ

/-- The simulation loop of `search`: at iteration `i` (while `i` is below the
simulation budget, encoded as the remaining `fuel`) the loop first checks
`stopSearch || Date.now() >= stopTime` and breaks, else runs one simulation.
A missing `timeLimit` makes `stopTime` `NaN` in JS, and `Date.now() >= NaN` is
false, which the `none` branch mirrors.  Returns the final tree and the number
of simulations executed. -/
def searchLoop (env : SearchEnv) (stopTime : Option ℚ) :
    ℕ → ℕ → MCTSNode × ℕ → MCTSNode × ℕ
  | _, 0, st => st
  | i, fuel + 1, (t, c) =>
    if env.stopFlag i || (match stopTime with
        | none => false
        | some st => decide (st ≤ env.clock i)) then (t, c)
    else searchLoop env stopTime (i + 1) fuel
      (runSimulation env.Z env.sqrtf env.expf env.evalf t, c + 1)

/-- `MCTSEngine.search(board, simulations, timeLimit)` with the two budget
arguments as `Option`s (`none` = the caller passed `undefined`): endgame
boards override the simulation count with `endgameSimulations`; the root is
initialised/reused and expanded; an empty root children array returns `null`
before anything else runs; Dirichlet noise is added; the loop runs under the
budget; the move is `root.getBestMove(MCTS_CONFIG.temperature)`.  A `none`
simulation budget runs the `for (let i = 0; i < simulations; ...)` loop zero
times (`0 < undefined` is false).  The second component instruments the number
of simulations executed (the source does not return it; it is exposed here so
that statements can speak about "before any simulation ran"). -/
def searchCore (env : SearchEnv) (prevRoot : Option MCTSNode) (board : Board)
    (simulations : Option ℕ) (timeLimit : Option ℚ) : Option Move × ℕ :=
  let stopTime := timeLimit.map (fun tl => env.startTime + tl)
  let totalPieces := (board.squares.filter (fun p => decide (p ≠ 0))).length
  let sims : Option ℕ :=
    if totalPieces < cfg.endgamePieceThreshold then some cfg.endgameSimulations
    else simulations
  let root0 := initRoot prevRoot board
  let root1 := expand env.Z env.expf root0
  if root1.children.isEmpty then (none, 0)
  else
    let root2 := addDirichletNoise env.powf env.rands root1
    let fuel := match sims with
      | none => 0
      | some s => s
    let final := searchLoop env stopTime 0 fuel (root2, 0)
    (getBestMove env.powf env.rng final.1 cfg.temperature, final.2)

/-- `MCTSEngine.search` itself: the move component of the instrumented
`searchCore`. -/
def search (env : SearchEnv) (prevRoot : Option MCTSNode) (board : Board)
    (simulations : Option ℕ) (timeLimit : Option ℚ) : Option Move :=
  (searchCore env prevRoot board simulations timeLimit).1

/-- `Evaluator.normalizeValue(score)` in its real-number form:
`Math.tanh(score / 1000)`. -/
noncomputable def normalizeValue (score : ℝ) : ℝ := Real.tanh (score / 1000)

/-! ### Generic lemmas about the argmax scan loops -/

/-- Characterisation of `selectLoop`: either no element beats the incoming
best (the incoming pair is returned), or the result is the FIRST element of the
list that strictly improves on everything before it: it beats the incoming
best, every list element is `≤` it, and every element at an earlier index is
strictly below it. -/
theorem selectLoop_spec (g : MCTSNode → ℚ) :
    ∀ (l : List MCTSNode) (best : MCTSNode) (bi i : ℕ),
      (selectLoop g best bi i l = (best, bi) ∧ ∀ c ∈ l, g c ≤ g best) ∨
      (∃ j c, l.get? j = some c ∧ selectLoop g best bi i l = (c, i + j) ∧
        g best < g c ∧ (∀ x ∈ l, g x ≤ g c) ∧
        (∀ m x, m < j → l.get? m = some x → g x < g c)) := by
  intro l
  induction l with
  | nil => intro best bi i; left; exact ⟨rfl, by simp⟩
  | cons a l ih =>
    intro best bi i
    by_cases hba : g best < g a
    · rcases ih a i (i + 1) with ⟨heq, hle⟩ | ⟨j, c, hget, heq, hlt, hmax, hfirst⟩
      · right
        refine ⟨0, a, rfl, ?_, hba, ?_, ?_⟩
        · simpa [selectLoop, hba] using heq
        · intro x hx
          rcases List.mem_cons.mp hx with h | h
          · exact le_of_eq (congrArg g h)
          · exact hle x h
        · intro m x hm; exact absurd hm (Nat.not_lt_zero m)
      · right
        refine ⟨j + 1, c, by simpa using hget, ?_, lt_trans hba hlt, ?_, ?_⟩
        · have : i + (j + 1) = (i + 1) + j := by omega
          rw [this]; simpa [selectLoop, hba] using heq
        · intro x hx
          rcases List.mem_cons.mp hx with h | h
          · exact le_of_lt (lt_of_le_of_lt (le_of_eq (congrArg g h)) hlt)
          · exact hmax x h
        · intro m x hm hgx
          match m, hm with
          | 0, _ =>
            simp only [List.get?_cons_zero] at hgx
            cases hgx; exact hlt
          | Nat.succ m', hm' =>
            simp only [List.get?_cons_succ] at hgx
            exact hfirst m' x (by omega) hgx
    · rcases ih best bi (i + 1) with ⟨heq, hle⟩ | ⟨j, c, hget, heq, hlt, hmax, hfirst⟩
      · left
        refine ⟨by simpa [selectLoop, hba] using heq, ?_⟩
        intro x hx
        rcases List.mem_cons.mp hx with h | h
        · exact (congrArg g h).trans_le (le_of_not_lt hba)
        · exact hle x h
      · right
        refine ⟨j + 1, c, by simpa using hget, ?_, hlt, ?_, ?_⟩
        · have : i + (j + 1) = (i + 1) + j := by omega
          rw [this]; simpa [selectLoop, hba] using heq
        · intro x hx
          rcases List.mem_cons.mp hx with h | h
          · exact le_of_lt (lt_of_le_of_lt ((congrArg g h).trans_le (le_of_not_lt hba)) hlt)
          · exact hmax x h
        · intro m x hm hgx
          match m, hm with
          | 0, _ =>
            simp only [List.get?_cons_zero] at hgx
            cases hgx; exact lt_of_le_of_lt (le_of_not_lt hba) hlt
          | Nat.succ m', hm' =>
            simp only [List.get?_cons_succ] at hgx
            exact hfirst m' x (by omega) hgx

/-- Same characterisation for `bestVisitLoop` (the temperature-0 scan of
`getBestMove`, keyed on `visitCount`). -/
theorem bestVisitLoop_spec :
    ∀ (l : List MCTSNode) (best : MCTSNode),
      (bestVisitLoop best l = best ∧ ∀ c ∈ l, c.visitCount ≤ best.visitCount) ∨
      (∃ j c, l.get? j = some c ∧ bestVisitLoop best l = c ∧
        best.visitCount < c.visitCount ∧ (∀ x ∈ l, x.visitCount ≤ c.visitCount) ∧
        (∀ m x, m < j → l.get? m = some x → x.visitCount < c.visitCount)) := by
  intro l
  induction l with
  | nil => intro best; left; exact ⟨rfl, by simp⟩
  | cons a l ih =>
    intro best
    by_cases hba : best.visitCount < a.visitCount
    · rcases ih a with ⟨heq, hle⟩ | ⟨j, c, hget, heq, hlt, hmax, hfirst⟩
      · right
        refine ⟨0, a, rfl, by simpa [bestVisitLoop, hba] using heq, hba, ?_, ?_⟩
        · intro x hx
          rcases List.mem_cons.mp hx with h | h
          · exact le_of_eq (congrArg MCTSNode.visitCount h)
          · exact hle x h
        · intro m x hm; exact absurd hm (Nat.not_lt_zero m)
      · right
        refine ⟨j + 1, c, by simpa using hget, by simpa [bestVisitLoop, hba] using heq,
          lt_trans hba hlt, ?_, ?_⟩
        · intro x hx
          rcases List.mem_cons.mp hx with h | h
          · exact le_of_lt (lt_of_le_of_lt (le_of_eq (congrArg MCTSNode.visitCount h)) hlt)
          · exact hmax x h
        · intro m x hm hgx
          match m, hm with
          | 0, _ =>
            simp only [List.get?_cons_zero] at hgx
            cases hgx; exact hlt
          | Nat.succ m', hm' =>
            simp only [List.get?_cons_succ] at hgx
            exact hfirst m' x (by omega) hgx
    · rcases ih best with ⟨heq, hle⟩ | ⟨j, c, hget, heq, hlt, hmax, hfirst⟩
      · left
        refine ⟨by simpa [bestVisitLoop, hba] using heq, ?_⟩
        intro x hx
        rcases List.mem_cons.mp hx with h | h
        · exact (congrArg MCTSNode.visitCount h).trans_le (le_of_not_lt hba)
        · exact hle x h
      · right
        refine ⟨j + 1, c, by simpa using hget, by simpa [bestVisitLoop, hba] using heq,
          hlt, ?_, ?_⟩
        · intro x hx
          rcases List.mem_cons.mp hx with h | h
          · exact le_of_lt (lt_of_le_of_lt
              ((congrArg MCTSNode.visitCount h).trans_le (le_of_not_lt hba)) hlt)
          · exact hmax x h
        · intro m x hm hgx
          match m, hm with
          | 0, _ =>
            simp only [List.get?_cons_zero] at hgx
            cases hgx; exact lt_of_le_of_lt (le_of_not_lt hba) hlt
          | Nat.succ m', hm' =>
            simp only [List.get?_cons_succ] at hgx
            exact hfirst m' x (by omega) hgx

/-! ### Lemmas about list surgery and the tree address space -/

/-- `modifyIdx` read-back. -/
theorem modifyIdx_get? (f : α → α) :
    ∀ (l : List α) (i j : ℕ),
      (modifyIdx f l i).get? j = if j = i then (l.get? i).map f else l.get? j := by
  intro l
  induction l with
  | nil => intro i j; simp [modifyIdx]
  | cons a l ih =>
    intro i j
    cases i with
    | zero =>
      cases j with
      | zero => simp [modifyIdx]
      | succ j' => simp [modifyIdx]
    | succ i' =>
      cases j with
      | zero => simp [modifyIdx]
      | succ j' => simpa [modifyIdx, Nat.succ_eq_add_one] using ih i' j'

/-- Effect of the list-shaped `backpropagate` on the `i`-th node of the
leaf-to-root chain: one extra visit and `value * (-1)^i` more total value. -/
theorem backpropagate_get? (value : ℚ) :
    ∀ (path : List NodeData) (i : ℕ),
      (backpropagate value path).get? i = (path.get? i).map (fun n =>
        { n with visitCount := n.visitCount + 1,
                 totalValue := n.totalValue + value * (-1) ^ i }) := by
  intro path
  induction path generalizing value with
  | nil => intro i; simp [backpropagate]
  | cons n rest ih =>
    intro i
    cases i with
    | zero => simp [backpropagate]
    | succ i' =>
      simp only [backpropagate, List.get?_cons_succ]
      rw [ih (-value) i']
      cases rest.get? i' with
      | none => rfl
      | some m =>
        simp only [Option.map_some']
        congr 2
        ring

/-- `getNodeAt` along a concatenated path factors through the midpoint. -/
theorem getNodeAt_append :
    ∀ (p q : List ℕ) (t : MCTSNode),
      getNodeAt t (p ++ q) = (getNodeAt t p).bind (fun x => getNodeAt x q) := by
  intro p
  induction p with
  | nil => intro q t; simp [getNodeAt]
  | cons i p' ih =>
    intro q t
    cases t with
    | node d ch =>
      simp only [List.cons_append, getNodeAt]
      cases ch.get? i with
      | none => rfl
      | some c => exact ih q c

/-- Reading back the modified node itself. -/
theorem getNodeAt_modifyAt_self (f : MCTSNode → MCTSNode) :
    ∀ (q : List ℕ) (t : MCTSNode),
      getNodeAt (modifyAt f t q) q = (getNodeAt t q).map f := by
  intro q
  induction q with
  | nil => intro t; simp [getNodeAt, modifyAt]
  | cons i q' ih =>
    intro t
    cases t with
    | node d ch =>
      simp only [modifyAt, getNodeAt]
      rw [modifyIdx_get?]
      simp only [if_pos rfl]
      cases hget : ch.get? i with
      | none => rfl
      | some c => simpa using ih c

/-- Unfolding `visitCountAt` at the root of a node. -/
theorem visitCountAt_nil (d : NodeData) (ch : List MCTSNode) :
    visitCountAt (.node d ch) [] = d.visitCount := rfl

/-- Unfolding `visitCountAt` one step into the children. -/
theorem visitCountAt_cons (d : NodeData) (ch : List MCTSNode) (j : ℕ) (r : List ℕ) :
    visitCountAt (.node d ch) (j :: r) =
      (match ch.get? j with
       | some c => visitCountAt c r
       | none => 0) := by
  simp only [visitCountAt, getNodeAt]
  cases ch.get? j with
  | none => rfl
  | some c => rfl

/-- Every visit count in a freshly constructed node is 0. -/
theorem visitCountAt_newMCTSNode (b : Board) (mv : Option Move) (pr : ℚ) (r : List ℕ) :
    visitCountAt (newMCTSNode b mv pr) r = 0 := by
  cases r with
  | nil => rfl
  | cons j r' => simp [newMCTSNode, visitCountAt_cons]

/-- `expand` never changes any `visitCount`: the expanded node keeps its own
count, pre-existing children are untouched, and the freshly created children
(at indices past the old children array) carry count 0 exactly like the absent
nodes they replace. -/
theorem expand_visitCountAt (Z : Zobrist) (expf : ℚ → ℚ) (x : MCTSNode) :
    ∀ r : List ℕ, visitCountAt (expand Z expf x) r = visitCountAt x r := by
  intro r
  cases x with
  | node d ch =>
    show visitCountAt (expand Z expf (.node d ch)) r = _
    rw [expand]
    by_cases he : d.isExpanded
    · simp [he]
    · simp only [he, Bool.false_eq_true, if_false]
      by_cases hm : (generate d.board false).isEmpty
      · simp only [hm, if_true]
        cases r with
        | nil => rfl
        | cons j r' => rw [visitCountAt_cons, visitCountAt_cons]
      · simp only [hm, Bool.false_eq_true, if_false]
        cases r with
        | nil => rfl
        | cons j r' =>
          rw [visitCountAt_cons, visitCountAt_cons]
          by_cases hj : j < ch.length
          · rw [List.get?_append hj]
          · have hle : ch.length ≤ j := le_of_not_lt hj
            rw [List.get?_eq_none.mpr hle]
            rcases hk : (ch ++ ((generate d.board false).zip
                (getMovePolicy Z expf d.board (generate d.board false))).map
                  (fun mp => newMCTSNode (makeMove Z d.board mp.1) (some mp.1) mp.2)).get? j
                with _ | c
            · rfl
            · have hmem := List.get?_mem hk
              have hnotch : c ∈ ((generate d.board false).zip
                  (getMovePolicy Z expf d.board (generate d.board false))).map
                    (fun mp => newMCTSNode (makeMove Z d.board mp.1) (some mp.1) mp.2) := by
                rw [List.get?_append_right hle] at hk
                exact List.get?_mem hk
              rcases List.mem_map.mp hnotch with ⟨mp, _, hmp⟩
              subst hmp
              simp [visitCountAt_newMCTSNode]

/-- Applying `expand` at the end of any path changes no `visitCount` anywhere
in the tree. -/
theorem modifyAt_expand_visitCountAt (Z : Zobrist) (expf : ℚ → ℚ) :
    ∀ (q : List ℕ) (t : MCTSNode) (p : List ℕ),
      visitCountAt (modifyAt (expand Z expf) t q) p = visitCountAt t p := by
  intro q
  induction q with
  | nil =>
    intro t p
    cases t with
    | node d ch => exact expand_visitCountAt Z expf (.node d ch) p
  | cons i q' ih =>
    intro t p
    cases t with
    | node d ch =>
      show visitCountAt (.node d (modifyIdx (fun c => modifyAt (expand Z expf) c q') ch i)) p
        = _
      cases p with
      | nil => rfl
      | cons j p' =>
        rw [visitCountAt_cons, visitCountAt_cons, modifyIdx_get?]
        by_cases hji : j = i
        · subst hji
          simp only [if_pos rfl]
          cases ch.get? j with
          | none => rfl
          | some c => simpa using ih c p'
        · simp only [if_neg hji]

/-- Effect of one `backpropPath` call on every node of the tree: each node on
the backed-up path (every prefix of `path`) gains exactly one visit, every
other node is untouched. -/
theorem backpropPath_visitCountAt (v : ℚ) :
    ∀ (q : List ℕ) (t : MCTSNode) (p : List ℕ), (getNodeAt t q).isSome →
      visitCountAt (backpropPath v t q) p =
        visitCountAt t p + (if p <+: q then 1 else 0) := by
  intro q
  induction q generalizing v with
  | nil =>
    intro t p _
    cases t with
    | node d ch =>
      cases p with
      | nil => simp [backpropPath, visitCountAt_nil, MCTSNode.visitCount, MCTSNode.data]
      | cons j p' =>
        have hnp : ¬(j :: p' <+: ([] : List ℕ)) := by
          intro h
          exact absurd (List.prefix_nil.mp h) (by simp)
        rw [if_neg hnp]
        show visitCountAt (.node _ ch) (j :: p') = visitCountAt (.node d ch) (j :: p') + 0
        rw [visitCountAt_cons, visitCountAt_cons]
        cases ch.get? j <;> simp
  | cons i q' ih =>
    intro t p hq
    cases t with
    | node d ch =>
      rcases hci : ch.get? i with _ | c
      · exfalso
        simp only [getNodeAt, hci] at hq
        exact absurd hq (by simp)
      · have hq' : (getNodeAt c q').isSome := by
          simpa only [getNodeAt, hci] using hq
        cases p with
        | nil =>
          have : ([] : List ℕ) <+: i :: q' := List.nil_prefix
          rw [if_pos this]
          simp [backpropPath, visitCountAt_nil, MCTSNode.visitCount, MCTSNode.data]
        | cons j p' =>
          show visitCountAt
            (.node _ (modifyIdx (fun c' => backpropPath v c' q') ch i)) (j :: p') = _
          rw [visitCountAt_cons, visitCountAt_cons, modifyIdx_get?]
          by_cases hji : j = i
          · subst hji
            rw [if_pos rfl, hci]
            simp only [Option.map_some']
            rw [ih v c p' hq']
            have : (j :: p' <+: j :: q') ↔ (p' <+: q') := by
              constructor
              · intro h; exact (List.cons_prefix_cons.mp h).2
              · intro h; exact List.cons_prefix_cons.mpr ⟨rfl, h⟩
            by_cases hp : p' <+: q'
            · rw [if_pos hp, if_pos (this.mpr hp)]
            · rw [if_neg hp, if_neg (fun hc => hp (this.mp hc))]
          · rw [if_neg hji]
            have : ¬(j :: p' <+: i :: q') := by
              intro h
              exact hji (List.cons_prefix_cons.mp h).1
            rw [if_neg this]
            cases ch.get? j with
            | none => rfl
            | some c' => omega

/-- `selectChild` returns exactly the child addressed by `selectChildIdx`. -/
theorem selectChild_eq_get_selectChildIdx (sqrtf : ℚ → ℚ) (t : MCTSNode) :
    selectChild sqrtf t = t.children.get? (selectChildIdx sqrtf t) := by
  rcases hch : t.children with _ | ⟨c0, rest⟩
  · simp [selectChild, selectChildIdx, hch]
  · simp only [selectChild, selectChildIdx, hch]
    rcases selectLoop_spec (fun c' => getPUCT sqrtf c' t.visitCount) rest c0 0 1 with
      ⟨heq, _⟩ | ⟨j, c, hget, heq, _, _, _⟩ <;> rw [heq]
    · simp
    · rw [Nat.add_comm 1 j]
      simp only [List.get?_cons_succ]
      exact hget.symm

/-- The chosen child index is inside the children array whenever it is
non-empty. -/
theorem selectChildIdx_lt (sqrtf : ℚ → ℚ) (t : MCTSNode) (h : t.children ≠ []) :
    selectChildIdx sqrtf t < t.children.length := by
  rcases hch : t.children with _ | ⟨c0, rest⟩
  · exact absurd hch h
  · simp only [selectChildIdx, hch]
    rcases selectLoop_spec (fun c' => getPUCT sqrtf c' t.visitCount) rest c0 0 1 with
      ⟨heq, _⟩ | ⟨j, c, hget, heq, _, _, _⟩ <;> rw [heq]
    · simp
    · have hj : j < rest.length := by
        by_contra hc
        rw [List.get?_eq_none.mpr (le_of_not_lt hc)] at hget
        cases hget
      simp only [List.length_cons]
      omega

/-- Every tree has at least one node. -/
theorem MCTSNode.size_pos (t : MCTSNode) : 1 ≤ t.size := by
  cases t with
  | node d ch =>
    rw [MCTSNode.size]
    omega

/-- A forest member's size is bounded by the forest's size. -/
theorem MCTSNode.size_le_sizeL : ∀ (cs : List MCTSNode) (c : MCTSNode), c ∈ cs →
    MCTSNode.size c ≤ MCTSNode.sizeL cs := by
  intro cs
  induction cs with
  | nil => intro c hc; cases hc
  | cons a l ih =>
    intro c hc
    rw [MCTSNode.sizeL]
    rcases List.mem_cons.mp hc with hc | hc
    · subst hc; omega
    · have := ih c hc; omega

/-- With fuel at least the tree's node count, the fuelled selection walk ends
at a node that fails the loop condition
`node.isExpanded && node.children.length > 0` — the fuel never truncates the
source's `while` loop. -/
theorem selectPathFuel_stops (sqrtf : ℚ → ℚ) :
    ∀ (fuel : ℕ) (t : MCTSNode), t.size ≤ fuel →
      ∃ x, getNodeAt t (selectPathFuel sqrtf fuel t) = some x ∧
        ¬(x.isExpanded = true ∧ x.children.isEmpty = false) := by
  intro fuel
  induction fuel with
  | zero =>
    intro t ht
    exact absurd ht (by have := t.size_pos; omega)
  | succ fuel ih =>
    intro t ht
    rw [selectPathFuel]
    by_cases hcond : t.isExpanded = true ∧ t.children.isEmpty = false
    · rw [if_pos hcond]
      have hne : t.children ≠ [] := by
        intro hc
        rw [hc] at hcond
        exact absurd hcond.2 (by simp)
      have hidx := selectChildIdx_lt sqrtf t hne
      rcases hg : t.children.get? (selectChildIdx sqrtf t) with _ | c
      · exact absurd hidx (not_lt.mpr (List.get?_eq_none.mp hg))
      · simp only [hg]
        have hcsize : c.size ≤ fuel := by
          have hmem : c ∈ t.children := List.get?_mem hg
          have h1 := MCTSNode.size_le_sizeL t.children c hmem
          cases t with
          | node d ch =>
            have h2 : MCTSNode.size (.node d ch) = 1 + MCTSNode.sizeL ch :=
              by rw [MCTSNode.size]
            rw [h2] at ht
            have h3 : MCTSNode.sizeL ch = MCTSNode.sizeL (MCTSNode.node d ch).children := rfl
            omega
        rcases ih c hcsize with ⟨x, hx1, hx2⟩
        refine ⟨x, ?_, hx2⟩
        cases t with
        | node d ch =>
          have hg' : ch.get? (selectChildIdx sqrtf (.node d ch)) = some c := hg
          simp only [getNodeAt, hg']
          exact hx1
    · rw [if_neg hcond]
      refine ⟨t, ?_, hcond⟩
      cases t with
      | node d ch => rfl

/-- The selection walk of the engine (`selectPath`, with its fuel `t.size`)
stops exactly where the source's `while` loop does. -/
theorem selectPath_stops_at_leaf (sqrtf : ℚ → ℚ) (t : MCTSNode) :
    ∃ x, getNodeAt t (selectPath sqrtf t) = some x ∧
      ¬(x.isExpanded = true ∧ x.children.isEmpty = false) :=
  selectPathFuel_stops sqrtf t.size t (le_refl _)

/-- The fuelled selection walk always addresses a node of the tree, for any
amount of fuel. -/
theorem selectPathFuel_isSome (sqrtf : ℚ → ℚ) :
    ∀ (fuel : ℕ) (t : MCTSNode), (getNodeAt t (selectPathFuel sqrtf fuel t)).isSome := by
  intro fuel
  induction fuel with
  | zero => intro t; simp [selectPathFuel, getNodeAt]
  | succ fuel ih =>
    intro t
    rw [selectPathFuel]
    split
    · rcases hg : t.children.get? (selectChildIdx sqrtf t) with _ | c
      · simp [getNodeAt]
      · simp only [hg]
        cases t with
        | node d ch =>
          have hg' : ch.get? (selectChildIdx sqrtf (.node d ch)) = some c := hg
          show (getNodeAt (.node d ch)
            (selectChildIdx sqrtf (.node d ch) :: selectPathFuel sqrtf fuel c)).isSome
          simp only [getNodeAt, hg']
          exact ih c
    · simp [getNodeAt]

/-- The selection path always addresses a node of the tree. -/
theorem selectPath_isSome (sqrtf : ℚ → ℚ) (t : MCTSNode) :
    (getNodeAt t (selectPath sqrtf t)).isSome :=
  selectPathFuel_isSome sqrtf t.size t

/-- The tree component of `simStep` (identity or a single `expand`) changes no
`visitCount`. -/
theorem simStep_tree_visitCountAt (Z : Zobrist) (sqrtf expf : ℚ → ℚ) (evalf : Board → ℚ)
    (t : MCTSNode) (p : List ℕ) :
    visitCountAt (simStep Z sqrtf expf evalf t).1 p = visitCountAt t p := by
  unfold simStep
  rcases hs : getNodeAt t (selectPath sqrtf t) with _ | nd
  · simp only [hs]
  · simp only [hs]
    by_cases h1 : nd.isTerminal = true
    · rw [if_pos h1]
    · rw [if_neg h1]
      by_cases h2 : cfg.minVisitsForExpansion ≤ nd.visitCount ∧ nd.isExpanded = false
      · rw [if_pos h2]
        rcases hs' : getNodeAt (modifyAt (expand Z expf) t (selectPath sqrtf t))
            (selectPath sqrtf t) with _ | nd'
        · simp only [hs']
          exact modifyAt_expand_visitCountAt Z expf _ t p
        · simp only [hs']
          by_cases h3 : nd'.isTerminal = true
          · rw [if_pos h3]
            exact modifyAt_expand_visitCountAt Z expf _ t p
          · rw [if_neg h3]
            rcases hh : nd'.children.head? with _ | c0
            · simp only [hh]
              exact modifyAt_expand_visitCountAt Z expf _ t p
            · simp only [hh]
              exact modifyAt_expand_visitCountAt Z expf _ t p
      · rw [if_neg h2]

/-- The backed-up path of `simStep` always addresses a node of its tree. -/
theorem simStep_path_isSome (Z : Zobrist) (sqrtf expf : ℚ → ℚ) (evalf : Board → ℚ)
    (t : MCTSNode) :
    (getNodeAt (simStep Z sqrtf expf evalf t).1 (simStep Z sqrtf expf evalf t).2.1).isSome := by
  unfold simStep
  rcases hs : getNodeAt t (selectPath sqrtf t) with _ | nd
  · exact absurd (selectPath_isSome sqrtf t) (by rw [hs]; simp)
  · simp only [hs]
    by_cases h1 : nd.isTerminal = true
    · rw [if_pos h1]
      simp only []
      rw [hs]; simp
    · rw [if_neg h1]
      by_cases h2 : cfg.minVisitsForExpansion ≤ nd.visitCount ∧ nd.isExpanded = false
      · rw [if_pos h2]
        rcases hs' : getNodeAt (modifyAt (expand Z expf) t (selectPath sqrtf t))
            (selectPath sqrtf t) with _ | nd'
        · exfalso
          rw [getNodeAt_modifyAt_self, hs] at hs'
          exact absurd hs' (by simp)
        · simp only [hs']
          by_cases h3 : nd'.isTerminal = true
          · rw [if_pos h3]
            simp only []
            rw [hs']; simp
          · rw [if_neg h3]
            rcases hh : nd'.children.head? with _ | c0
            · simp only [hh]
              rw [hs']; simp
            · simp only [hh]
              show (getNodeAt (modifyAt (expand Z expf) t (selectPath sqrtf t))
                (selectPath sqrtf t ++ [0])).isSome
              rw [getNodeAt_append, hs']
              cases nd' with
              | node d' ch' =>
                have hc0 : ch'.get? 0 = some c0 := by
                  cases ch' with
                  | nil => simp [MCTSNode.children] at hh
                  | cons a l =>
                    simp only [MCTSNode.children, List.head?_cons] at hh
                    simpa using hh
                simp only [Option.some_bind, getNodeAt, hc0]
                rfl
      · rw [if_neg h2]
        simp only []
        rw [hs]; simp

/-- One `runSimulation` adds exactly one visit to every node on the
simulation's backed-up path (the prefixes of `simStep`'s path component) and
leaves every other visit count unchanged. -/
theorem runSimulation_visitCountAt (Z : Zobrist) (sqrtf expf : ℚ → ℚ) (evalf : Board → ℚ)
    (t : MCTSNode) (p : List ℕ) :
    visitCountAt (runSimulation Z sqrtf expf evalf t) p =
      visitCountAt t p +
        (if p <+: (simStep Z sqrtf expf evalf t).2.1 then 1 else 0) := by
  unfold runSimulation
  rw [backpropPath_visitCountAt _ _ _ _ (simStep_path_isSome Z sqrtf expf evalf t),
    simStep_tree_visitCountAt]

/-- Exact counting over iterated simulations: after `n` simulations a node's
visit count is its initial count plus the number of simulations whose backed-up
path passed through it. -/
theorem iterate_visitCountAt (Z : Zobrist) (sqrtf expf : ℚ → ℚ) (evalf : Board → ℚ)
    (t0 : MCTSNode) (p : List ℕ) :
    ∀ n : ℕ,
      visitCountAt ((runSimulation Z sqrtf expf evalf)^[n] t0) p =
        ((Finset.range n).filter (fun i =>
          p <+: (simStep Z sqrtf expf evalf
            ((runSimulation Z sqrtf expf evalf)^[i] t0)).2.1)).card +
          visitCountAt t0 p := by
  intro n
  induction n with
  | zero => simp
  | succ n ih =>
    rw [Function.iterate_succ_apply', runSimulation_visitCountAt, ih]
    rw [Finset.range_succ, Finset.filter_insert]
    by_cases hp : p <+: (simStep Z sqrtf expf evalf
        ((runSimulation Z sqrtf expf evalf)^[n] t0)).2.1
    · rw [if_pos hp, if_pos hp,
        Finset.card_insert_of_not_mem (fun hc => absurd (Finset.mem_range.mp
          (Finset.mem_filter.mp hc).1) (lt_irrefl n))]
      omega
    · rw [if_neg hp, if_neg hp]
      omega

/-- Visit counts never decrease from one simulation to the next. -/
theorem iterate_visitCountAt_monotone (Z : Zobrist) (sqrtf expf : ℚ → ℚ)
    (evalf : Board → ℚ) (t0 : MCTSNode) (p : List ℕ) :
    Monotone (fun n => visitCountAt ((runSimulation Z sqrtf expf evalf)^[n] t0) p) := by
  apply monotone_nat_of_le_succ
  intro n
  rw [Function.iterate_succ_apply', runSimulation_visitCountAt]
  omega

/-! ### Sum lemmas for the Dirichlet-noise blend -/

/-- Shifting the accumulator out of a `foldl (+)`. -/
theorem foldl_add_shift : ∀ (l : List ℚ) (x : ℚ),
    l.foldl (· + ·) x = x + l.foldl (· + ·) 0 := by
  intro l
  induction l with
  | nil => intro x; simp
  | cons b l ih =>
    intro x
    simp only [List.foldl_cons]
    rw [ih (x + b), ih (0 + b)]
    ring

/-- Sum of the blended priors produced by `addDirichletNoise`'s final loop, in
terms of the old prior sum and the raw noise sum. -/
theorem blend_prior_sum (ε S : ℚ) :
    ∀ (ch : List MCTSNode) (ns : List ℚ), ch.length = ns.length →
      (((ch.zip ns).map (fun cn =>
        match cn.1 with
        | .node dc chc =>
          MCTSNode.node { dc with prior := (1 - ε) * dc.prior + ε * (cn.2 / S) } chc)).map
            MCTSNode.prior).foldl (· + ·) 0 =
        (1 - ε) * ((ch.map MCTSNode.prior).foldl (· + ·) 0) +
          ε * ((ns.foldl (· + ·) 0) / S) := by
  intro ch
  induction ch with
  | nil =>
    intro ns hlen
    cases ns with
    | nil => simp
    | cons b ns => simp at hlen
  | cons a ch ih =>
    intro ns hlen
    cases ns with
    | nil => simp at hlen
    | cons b ns =>
      have hlen' : ch.length = ns.length := by simpa using hlen
      cases a with
      | node da cha =>
        simp only [List.zip_cons_cons, List.map_cons, List.foldl_cons]
        rw [foldl_add_shift _ (0 + _), foldl_add_shift _ (0 + _), foldl_add_shift _ (0 + b)]
        rw [ih ns hlen']
        have hprior : (MCTSNode.node
            { da with prior := (1 - ε) * da.prior + ε * (b / S) } cha).prior =
            (1 - ε) * da.prior + ε * (b / S) := rfl
        have hprior2 : (MCTSNode.node da cha).prior = da.prior := rfl
        rw [hprior, hprior2, add_div]
        ring

/-! ### Concrete inputs used by witnesses and counterexamples -/

/-- A board with no pieces at all: `legalMoves()` is empty. -/
def Bempty : Board :=
  { squares := List.replicate 64 0, turn := 1, castling := ⟨true, true, true, true⟩,
    enPassant := -1, halfmove := 0, fullmove := 1, kingsWhite := -1, kingsBlack := -1,
    hash := 0 }

/-- The standard initial position (32 pieces, 20 pseudo-legal white moves). -/
def Binit : Board :=
  { squares := [10, 8, 9, 11, 12, 9, 8, 10] ++ List.replicate 8 7 ++ List.replicate 32 0 ++
      List.replicate 8 1 ++ [4, 2, 3, 5, 6, 3, 2, 4]
    turn := 1, castling := ⟨true, true, true, true⟩, enPassant := -1, halfmove := 0,
    fullmove := 1, kingsWhite := 60, kingsBlack := 4, hash := 0 }

/-- SEE failing input: a white queen on square 4, a black pawn (the victim) on
square 28, and a black pawn on square 37 defending square 28. -/
def B5 : Board :=
  { squares := (List.range 64).map (fun i =>
      if i = 4 then 5 else if i = 28 then 7 else if i = 37 then 7 else 0)
    turn := 1, castling := ⟨true, true, true, true⟩, enPassant := -1, halfmove := 0,
    fullmove := 1, kingsWhite := -1, kingsBlack := -1, hash := 0 }

/-- The queen capture 4 → 28 on `B5` (a 900-valued attacker taking a
100-valued victim on a square defended by a 100-valued enemy pawn). -/
def M5 : Move := mkMove 4 28

/-- A board with a single white pawn on square 48 (two generated moves). -/
def B9 : Board :=
  { squares := (List.range 64).map (fun i => if i = 48 then 1 else 0), turn := 1,
    castling := ⟨true, true, true, true⟩, enPassant := -1, halfmove := 0, fullmove := 1,
    kingsWhite := -1, kingsBlack := -1, hash := 0 }

/-- A concrete instantiation of the environment functions: identity square
root, constant-1 exponential, zero evaluator, first-projection power (which
agrees with `Math.pow` on the bases 0 and 1, the only values the witnesses
feed it), zero random draw, constant-1 noise stream, never-stopping flags and
a frozen clock. -/
def env0 : SearchEnv :=
  { Z := Z0, sqrtf := fun x => x, expf := fun _ => 1, evalf := fun _ => 0,
    powf := fun x _ => x, rng := 0, rands := fun _ => 1, stopFlag := fun _ => false,
    startTime := 0, clock := fun _ => 0 }

/-- A search tree whose root (the initial position, already expanded) has one
child holding a position with no legal moves; the child has been visited once,
so the next simulation will expand it and discover it is terminal. -/
def T3 : MCTSNode :=
  .node
    { board := Binit, move := none, prior := 0, visitCount := 1, totalValue := 0,
      virtualLoss := 0, isExpanded := true, isTerminal := false, terminalValue := 0 }
    [.node
      { board := Bempty, move := some (mkMove 0 0), prior := 1, visitCount := 1,
        totalValue := 0, virtualLoss := 0, isExpanded := false, isTerminal := false,
        terminalValue := 0 } []]

/-- Previous root for the tree-reuse counterexample: fingerprint 1, one child
with fingerprint 2 and 7 accumulated visits. -/
def C4child : MCTSNode :=
  .node
    { board := { Bempty with hash := 2 }, move := some (mkMove 0 0), prior := 1,
      visitCount := 7, totalValue := 3, virtualLoss := 0, isExpanded := false,
      isTerminal := false, terminalValue := 0 } []

/-- The previous search's root (fingerprint 1) owning `C4child`. -/
def RprevC4 : MCTSNode :=
  .node
    { board := { Binit with hash := 1 }, move := none, prior := 0, visitCount := 9,
      totalValue := 1, virtualLoss := 0, isExpanded := true, isTerminal := false,
      terminalValue := 0 } [C4child]

/-- The new position searched next: its fingerprint (2) matches `C4child`'s,
not the previous root's. -/
def BnewC4 : Board := { Binit with hash := 2 }

/-- A position with the previous root's own fingerprint (1). -/
def BsameC4 : Board := { Binit with hash := 1 }

/-! ### Claim C5 (code bug in the SEE filter) -/

/-- C5: at the failing input `B5`/`M5` (queen value 900 captures pawn value
100 on a square defended by an enemy pawn) the source's SEE returns
`gain = 100` and classifies the capture as SAFE, because after `makeMove`
flips the turn the check `isSquareAttacked(to, -tempBoard.turn)` asks whether
the destination is attacked by the CAPTURING side; the enemy (the flipped
`tempBoard.turn`) does attack the destination, so the spec's rule
`gain = 100 - 900 = -800`, unsafe under threshold -50, is violated while the
code contradicts its own comment "If attacker can be recaptured, subtract
attacker value". -/
theorem C5_SEE_checks_wrong_side :
    SEE.evaluate Z0 B5 M5 = 100 ∧
    SEE.isCaptureSafe Z0 B5 M5 = true ∧
    getPieceValue (getPieceType (B5.squares.getD M5.fromSq 0)) = 900 ∧
    getPieceValue (getPieceType (B5.squares.getD M5.toSq 0)) = 100 ∧
    isSquareAttacked (makeMove Z0 B5 M5) (M5.toSq : ℤ) ((makeMove Z0 B5 M5).turn) = true ∧
    isSquareAttacked (makeMove Z0 B5 M5) (M5.toSq : ℤ) (-(makeMove Z0 B5 M5).turn) = false ∧
    ¬((100 : ℤ) - 900 ≥ cfg.seeThreshold) := by
  refine ⟨by decide, by decide, by decide, by decide, by decide, by decide, by decide⟩

/-! ### Claim C4 (tree reuse never promotes a child) -/

/-- C4 counterexample: the new position's fingerprint matches a child of the
previous root (which has 7 visits), yet `search`'s root initialisation
discards the whole previous tree and builds a fresh root with `visitCount = 0`
— no child subtree is promoted. -/
theorem C4_counterexample_no_child_promotion :
    (∃ c ∈ RprevC4.children, c.board.hash = BnewC4.hash) ∧
    C4child.visitCount = 7 ∧
    initRoot (some RprevC4) BnewC4 = freshNode BnewC4 ∧
    (initRoot (some RprevC4) BnewC4).visitCount = 0 ∧
    (initRoot (some RprevC4) BnewC4).isExpanded = false := by
  refine ⟨⟨C4child, ?_, rfl⟩, rfl, rfl, rfl, rfl⟩
  show C4child ∈ [C4child]
  exact List.mem_singleton.mpr rfl

/-- C4 amended: the previous tree is reused only when the new position's
fingerprint equals the previous ROOT's own fingerprint (in which case the
whole tree, visit counts included, is kept); in every other case — including
a fingerprint match against one of the root's children — a fresh, unexpanded
root with `visitCount = 0` is built. -/
theorem C4_amended_root_reuse (prev : Option MCTSNode) (b : Board) :
    (∀ r, prev = some r → r.board.hash = b.hash →
      initRoot prev b = r ∧ (initRoot prev b).visitCount = r.visitCount) ∧
    (∀ r, prev = some r → r.board.hash ≠ b.hash →
      initRoot prev b = freshNode b ∧ (initRoot prev b).visitCount = 0) ∧
    (prev = none → initRoot prev b = freshNode b) := by
  refine ⟨?_, ?_, ?_⟩
  · intro r hr hh
    subst hr
    have heq : initRoot (some r) b = r := by simp [initRoot, hh]
    exact ⟨heq, by rw [heq]⟩
  · intro r hr hh
    subst hr
    simp only [initRoot]
    rw [if_pos hh]
    exact ⟨rfl, rfl⟩
  · intro hp
    subst hp
    rfl

/-- C4 amended witness: reusing at the root's own fingerprint keeps the root
and its 9 visits. -/
theorem C4_amended_root_reuse_witness :
    initRoot (some RprevC4) BsameC4 = RprevC4 ∧
    (initRoot (some RprevC4) BsameC4).visitCount = RprevC4.visitCount :=
  (C4_amended_root_reuse (some RprevC4) BsameC4).1 RprevC4 rfl rfl

/-! ### Claim C3 (value normalisation bound fails on terminal simulations) -/

/-- `Real.tanh` stays strictly inside `(-1, 1)`. -/
theorem tanh_mem_Ioo (x : ℝ) : -1 < Real.tanh x ∧ Real.tanh x < 1 := by
  rw [Real.tanh_eq_sinh_div_cosh]
  constructor
  · rw [lt_div_iff (Real.cosh_pos x)]
    have h := Real.sinh_lt_cosh (-x)
    rw [Real.sinh_neg, Real.cosh_neg] at h
    linarith
  · rw [div_lt_one (Real.cosh_pos x)]
    exact Real.sinh_lt_cosh x

unseal Rat.add Rat.mul Rat.inv Rat.sub in
/-- C3 counterexample: the simulation that reaches the once-visited child of
`T3` expands it, finds no legal moves, marks it terminal with
`terminalValue = -MATE_SCORE`, and backpropagates `-50000` — far outside
`[-1, 1]` — so the root's `totalValue` jumps by `+50000` after the sign flip. -/
theorem C3_counterexample_terminal_value_unbounded :
    (simStep Z0 env0.sqrtf env0.expf env0.evalf T3).2.2 = -50000 ∧
    ¬(-1 ≤ (simStep Z0 env0.sqrtf env0.expf env0.evalf T3).2.2 ∧
      (simStep Z0 env0.sqrtf env0.expf env0.evalf T3).2.2 ≤ 1) ∧
    (runSimulation Z0 env0.sqrtf env0.expf env0.evalf T3).totalValue = 50000 := by
  refine ⟨by decide, by decide, by decide⟩

/-- C3 amended: values produced by the evaluator path are indeed normalised
into the open interval `(-1, 1)` by `normalizeValue = tanh(score/1000)`; but a
simulation that ends at a node whose expansion finds no legal moves
backpropagates that node's `terminalValue = -MATE_SCORE = -50000`, which lies
far outside `[-1, 1]`. -/
theorem C3_amended_normalization (Z : Zobrist) (expf : ℚ → ℚ) (s : ℝ) (x : MCTSNode)
    (h1 : x.isExpanded = false) (h2 : generate x.board false = []) :
    (-1 < normalizeValue s ∧ normalizeValue s < 1) ∧
    (expand Z expf x).isTerminal = true ∧
    (expand Z expf x).terminalValue = -MATE_SCORE ∧
    ¬(-1 ≤ -MATE_SCORE ∧ -MATE_SCORE ≤ (1 : ℚ)) := by
  refine ⟨tanh_mem_Ioo (s / 1000), ?_, ?_, ?_⟩
  · cases x with
    | node d ch =>
      have hd : d.isExpanded = false := h1
      have hb : generate d.board false = [] := h2
      show (expand Z expf (.node d ch)).isTerminal = true
      rw [expand]
      simp [hd, hb, MCTSNode.isTerminal, MCTSNode.data]
  · cases x with
    | node d ch =>
      have hd : d.isExpanded = false := h1
      have hb : generate d.board false = [] := h2
      show (expand Z expf (.node d ch)).terminalValue = -MATE_SCORE
      rw [expand]
      simp [hd, hb, MCTSNode.terminalValue, MCTSNode.data]
  · intro hcontra
    have : (50000 : ℚ) ≤ 1 := by
      have := hcontra.1
      rw [MATE_SCORE] at this
      linarith
    linarith

unseal Rat.add Rat.mul Rat.inv Rat.sub in
/-- C3 amended witness: the fresh root of the empty board satisfies both
hypotheses, and `normalizeValue` at score 0 is bounded. -/
theorem C3_amended_normalization_witness :
    (freshNode Bempty).isExpanded = false ∧ generate Bempty false = [] ∧
    ((-1 < normalizeValue 0 ∧ normalizeValue 0 < 1) ∧
      (expand Z0 env0.expf (freshNode Bempty)).isTerminal = true ∧
      (expand Z0 env0.expf (freshNode Bempty)).terminalValue = -MATE_SCORE ∧
      ¬(-1 ≤ -MATE_SCORE ∧ -MATE_SCORE ≤ (1 : ℚ))) :=
  ⟨rfl, by decide, C3_amended_normalization Z0 env0.expf 0 (freshNode Bempty) rfl (by decide)⟩

/-! ### Claim C10 (noise blending preserves prior normalisation) -/

/-- C10: if the children's priors sum to 1 and the raw noise draws
`powf (rands i) (1/α)` have a non-zero sum, then after `addDirichletNoise`
the children's priors still sum to 1: the noise vector is renormalised by its
sum and each prior becomes the convex combination
`(1-ε) * prior + ε * noise_i`. -/
theorem C10_addDirichletNoise_preserves_prior_sum (powf : ℚ → ℚ → ℚ) (rands : ℕ → ℚ)
    (t : MCTSNode)
    (h1 : ((t.children.map MCTSNode.prior).foldl (· + ·) 0) = 1)
    (h2 : (((List.range t.children.length).map
      (fun i => powf (rands i) (1 / cfg.dirichletAlpha))).foldl (· + ·) 0) ≠ 0) :
    (((addDirichletNoise powf rands t).children.map MCTSNode.prior).foldl (· + ·) 0) = 1 := by
  cases t with
  | node d ch =>
    cases ch with
    | nil =>
      exfalso
      simp only [MCTSNode.children] at h1
      norm_num at h1
    | cons c0 rest =>
      have hne : (c0 :: rest).isEmpty = false := rfl
      show (((addDirichletNoise powf rands (.node d (c0 :: rest))).children.map
        MCTSNode.prior).foldl (· + ·) 0) = 1
      rw [addDirichletNoise]
      simp only [hne, Bool.false_eq_true, if_false, MCTSNode.children]
      rw [blend_prior_sum _ _ _ _ (by simp)]
      simp only [MCTSNode.children] at h1 h2
      simp only [List.length_cons] at h2 ⊢
      rw [h1, div_self h2]
      ring

/-! ### Claim C1 (PUCT child selection) -/

/-- C1: on a node with a non-empty children list, `selectChild()` returns the
FIRST child (in move-generation order, i.e. `children` order) that maximises
`Score(parentVisits) = Q + U` evaluated at `parentVisits = this.visitCount`:
the returned child's score is maximal, every earlier child scores strictly
below it, and the score of any node is exactly
`(if visitCount = 0 then 0 else (totalValue - virtualLoss*L)/(visitCount +
virtualLoss)) + cPuct * prior * sqrt(parentVisits) / (1 + visitCount)`. -/
theorem C1_selectChild_first_argmax (sqrtf : ℚ → ℚ) (t : MCTSNode)
    (h : t.children ≠ []) :
    ∃ j c, t.children.get? j = some c ∧ selectChild sqrtf t = some c ∧
      (∀ x ∈ t.children, getPUCT sqrtf x t.visitCount ≤ getPUCT sqrtf c t.visitCount) ∧
      (∀ m x, m < j → t.children.get? m = some x →
        getPUCT sqrtf x t.visitCount < getPUCT sqrtf c t.visitCount) ∧
      (∀ (x : MCTSNode) (pv : ℕ), getPUCT sqrtf x pv =
        (if x.visitCount = 0 then 0
         else (x.totalValue - (x.virtualLoss : ℚ) * cfg.virtualLoss) /
           ((x.visitCount : ℚ) + (x.virtualLoss : ℚ))) +
        cPuctOf x.board * x.prior * sqrtf (pv : ℚ) / (1 + (x.visitCount : ℚ))) := by
  rcases hch : t.children with _ | ⟨c0, rest⟩
  · exact absurd hch h
  · have hsel : selectChild sqrtf t =
        some (selectLoop (fun c' => getPUCT sqrtf c' t.visitCount) c0 0 1 rest).1 := by
      simp only [selectChild, hch]
    rcases selectLoop_spec (fun c' => getPUCT sqrtf c' t.visitCount) rest c0 0 1 with
      ⟨heq, hle⟩ | ⟨j', c, hget, heq, hlt, hmax, hfirst⟩
    · refine ⟨0, c0, rfl, by rw [hsel, heq], ?_, ?_, fun x pv => rfl⟩
      · intro x hx
        rcases List.mem_cons.mp hx with hx | hx
        · exact le_of_eq (congrArg (fun y => getPUCT sqrtf y t.visitCount) hx)
        · exact hle x hx
      · intro m x hm
        exact absurd hm (Nat.not_lt_zero m)
    · refine ⟨j' + 1, c, by simpa using hget, by rw [hsel, heq], ?_, ?_,
        fun x pv => rfl⟩
      · intro x hx
        rcases List.mem_cons.mp hx with hx | hx
        · exact le_of_lt (lt_of_le_of_lt
            (le_of_eq (congrArg (fun y => getPUCT sqrtf y t.visitCount) hx)) hlt)
        · exact hmax x hx
      · intro m x hm hgx
        match m, hm with
        | 0, _ =>
          simp only [List.get?_cons_zero] at hgx
          cases hgx
          exact hlt
        | Nat.succ m', hm' =>
          simp only [List.get?_cons_succ] at hgx
          exact hfirst m' x (by omega) hgx

/-- Two-child node used to witness C1: the second child has the strictly
better Q, so the scan must return it. -/
def T1 : MCTSNode :=
  .node
    { board := Bempty, move := none, prior := 0, visitCount := 2, totalValue := 0,
      virtualLoss := 0, isExpanded := true, isTerminal := false, terminalValue := 0 }
    [.node
      { board := Bempty, move := some (mkMove 8 16), prior := 0, visitCount := 1,
        totalValue := -1, virtualLoss := 0, isExpanded := false, isTerminal := false,
        terminalValue := 0 } [],
     .node
      { board := Bempty, move := some (mkMove 9 17), prior := 0, visitCount := 1,
        totalValue := 1, virtualLoss := 0, isExpanded := false, isTerminal := false,
        terminalValue := 0 } []]

/-- C1 witness at `T1`. -/
theorem C1_selectChild_first_argmax_witness :
    T1.children ≠ [] ∧
    (∃ j c, T1.children.get? j = some c ∧ selectChild env0.sqrtf T1 = some c ∧
      (∀ x ∈ T1.children,
        getPUCT env0.sqrtf x T1.visitCount ≤ getPUCT env0.sqrtf c T1.visitCount) ∧
      (∀ m x, m < j → T1.children.get? m = some x →
        getPUCT env0.sqrtf x T1.visitCount < getPUCT env0.sqrtf c T1.visitCount) ∧
      (∀ (x : MCTSNode) (pv : ℕ), getPUCT env0.sqrtf x pv =
        (if x.visitCount = 0 then 0
         else (x.totalValue - (x.virtualLoss : ℚ) * cfg.virtualLoss) /
           ((x.visitCount : ℚ) + (x.virtualLoss : ℚ))) +
        cPuctOf x.board * x.prior * env0.sqrtf (pv : ℚ) / (1 + (x.visitCount : ℚ)))) :=
  have hne : T1.children ≠ [] := by
    intro hc
    exact List.noConfusion (show _ :: _ = ([] : List MCTSNode) from hc)
  ⟨hne, C1_selectChild_first_argmax env0.sqrtf T1 hne⟩

/-! ### Claim C2 (leaf-to-root backpropagation with sign alternation) -/

/-- C2: `backpropagate(value)` walks the recorded chain leaf → root; every
node on it gains exactly one visit and the node `i` parent-steps above the
leaf gains `value * (-1)^i`; in particular, on a path of `k` edges from root
to leaf (`k+1` nodes, the root last), the root's `totalValue` receives
`value * (-1)^k`. -/
theorem C2_backpropagate_leaf_to_root (value : ℚ) (path : List NodeData) (k : ℕ)
    (hk : path.length = k + 1) :
    (∀ i, i < path.length →
      ((backpropagate value path).get? i).map NodeData.visitCount =
        (path.get? i).map (fun nd => nd.visitCount + 1) ∧
      ((backpropagate value path).get? i).map NodeData.totalValue =
        (path.get? i).map (fun nd => nd.totalValue + value * (-1) ^ i)) ∧
    ((backpropagate value path).get? k).map NodeData.totalValue =
      (path.get? k).map (fun nd => nd.totalValue + value * (-1) ^ k) := by
  have main : ∀ i, i < path.length →
      ((backpropagate value path).get? i).map NodeData.visitCount =
        (path.get? i).map (fun nd => nd.visitCount + 1) ∧
      ((backpropagate value path).get? i).map NodeData.totalValue =
        (path.get? i).map (fun nd => nd.totalValue + value * (-1) ^ i) := by
    intro i _
    rw [backpropagate_get? value path i]
    cases path.get? i with
    | none => exact ⟨rfl, rfl⟩
    | some nd => exact ⟨rfl, rfl⟩
  exact ⟨main, (main k (by omega)).2⟩

/-- A three-node leaf-to-root chain used to witness C2. -/
def P2 : List NodeData :=
  [{ board := Bempty, move := none, prior := 0, visitCount := 5, totalValue := 2,
     virtualLoss := 0, isExpanded := false, isTerminal := false, terminalValue := 0 },
   { board := Bempty, move := none, prior := 0, visitCount := 6, totalValue := 3,
     virtualLoss := 0, isExpanded := true, isTerminal := false, terminalValue := 0 },
   { board := Bempty, move := none, prior := 0, visitCount := 7, totalValue := 4,
     virtualLoss := 0, isExpanded := true, isTerminal := false, terminalValue := 0 }]

/-- C2 witness: a path of 2 edges (3 nodes). -/
theorem C2_backpropagate_leaf_to_root_witness :
    P2.length = 2 + 1 ∧
    ((∀ i, i < P2.length →
      ((backpropagate 4 P2).get? i).map NodeData.visitCount =
        (P2.get? i).map (fun nd => nd.visitCount + 1) ∧
      ((backpropagate 4 P2).get? i).map NodeData.totalValue =
        (P2.get? i).map (fun nd => nd.totalValue + 4 * (-1) ^ i)) ∧
    ((backpropagate 4 P2).get? 2).map NodeData.totalValue =
      (P2.get? 2).map (fun nd => nd.totalValue + 4 * (-1) ^ 2)) :=
  ⟨rfl, C2_backpropagate_leaf_to_root 4 P2 2 rfl⟩

/-! ### Claim C6 (temperature-0 move choice) -/

/-- C6: with `temperature == 0` and a non-empty children list, `getBestMove`
returns the move of the FIRST child attaining the maximum `visitCount` (ties
keep the earlier child), and the result does not depend on the `Math.pow` and
`Math.random` inputs — repeated calls on an unchanged tree return the same
move. -/
theorem C6_getBestMove_temp0_first_max_visits (powf : ℚ → ℚ → ℚ) (rng : ℚ)
    (t : MCTSNode) (h : t.children ≠ []) :
    ∃ j c, t.children.get? j = some c ∧ getBestMove powf rng t 0 = c.move ∧
      (∀ x ∈ t.children, x.visitCount ≤ c.visitCount) ∧
      (∀ m x, m < j → t.children.get? m = some x → x.visitCount < c.visitCount) ∧
      (∀ (powf' : ℚ → ℚ → ℚ) (rng' : ℚ),
        getBestMove powf' rng' t 0 = getBestMove powf rng t 0) := by
  rcases hch : t.children with _ | ⟨c0, rest⟩
  · exact absurd hch h
  · have hbm : ∀ (pf : ℚ → ℚ → ℚ) (r : ℚ),
        getBestMove pf r t 0 = (bestVisitLoop c0 (c0 :: rest)).move := by
      intro pf r
      simp only [getBestMove, hch]
      simp
    have hstep : bestVisitLoop c0 (c0 :: rest) = bestVisitLoop c0 rest := by
      rw [bestVisitLoop, if_neg (lt_irrefl _)]
    rcases bestVisitLoop_spec rest c0 with ⟨heq, hle⟩ | ⟨j', c, hget, heq, hlt, hmax, hfirst⟩
    · refine ⟨0, c0, rfl, by rw [hbm, hstep, heq], ?_, ?_, ?_⟩
      · intro x hx
        rcases List.mem_cons.mp hx with hx | hx
        · exact le_of_eq (congrArg MCTSNode.visitCount hx)
        · exact hle x hx
      · intro m x hm
        exact absurd hm (Nat.not_lt_zero m)
      · intro powf' rng'
        rw [hbm, hbm]
    · refine ⟨j' + 1, c, by simpa using hget,
        by rw [hbm, hstep, heq], ?_, ?_, ?_⟩
      · intro x hx
        rcases List.mem_cons.mp hx with hx | hx
        · exact le_of_lt (lt_of_le_of_lt (le_of_eq (congrArg MCTSNode.visitCount hx)) hlt)
        · exact hmax x hx
      · intro m x hm hgx
        match m, hm with
        | 0, _ =>
          simp only [List.get?_cons_zero] at hgx
          cases hgx
          exact hlt
        | Nat.succ m', hm' =>
          simp only [List.get?_cons_succ] at hgx
          exact hfirst m' x (by omega) hgx
      · intro powf' rng'
        rw [hbm, hbm]

/-- Three-child node used to witness C6 (visit counts 2, 5, 5: the first
5-visit child must win the tie). -/
def T6 : MCTSNode :=
  .node
    { board := Bempty, move := none, prior := 0, visitCount := 12, totalValue := 0,
      virtualLoss := 0, isExpanded := true, isTerminal := false, terminalValue := 0 }
    [.node
      { board := Bempty, move := some (mkMove 8 16), prior := 0, visitCount := 2,
        totalValue := 0, virtualLoss := 0, isExpanded := false, isTerminal := false,
        terminalValue := 0 } [],
     .node
      { board := Bempty, move := some (mkMove 9 17), prior := 0, visitCount := 5,
        totalValue := 0, virtualLoss := 0, isExpanded := false, isTerminal := false,
        terminalValue := 0 } [],
     .node
      { board := Bempty, move := some (mkMove 10 18), prior := 0, visitCount := 5,
        totalValue := 0, virtualLoss := 0, isExpanded := false, isTerminal := false,
        terminalValue := 0 } []]

/-- C6 witness at `T6`. -/
theorem C6_getBestMove_temp0_first_max_visits_witness :
    T6.children ≠ [] ∧
    (∃ j c, T6.children.get? j = some c ∧ getBestMove env0.powf env0.rng T6 0 = c.move ∧
      (∀ x ∈ T6.children, x.visitCount ≤ c.visitCount) ∧
      (∀ m x, m < j → T6.children.get? m = some x → x.visitCount < c.visitCount) ∧
      (∀ (powf' : ℚ → ℚ → ℚ) (rng' : ℚ),
        getBestMove powf' rng' T6 0 = getBestMove env0.powf env0.rng T6 0)) :=
  have hne : T6.children ≠ [] := by
    intro hc
    exact List.noConfusion (show _ :: _ = ([] : List MCTSNode) from hc)
  ⟨hne, C6_getBestMove_temp0_first_max_visits env0.powf env0.rng T6 hne⟩

unseal Rat.add Rat.mul Rat.inv Rat.sub in
/-- C10 witness: `T3`'s root (one child with prior 1) and the constant-1 noise
stream (noise sum 1 ≠ 0) still sums to 1 after blending. -/
theorem C10_addDirichletNoise_preserves_prior_sum_witness :
    ((((T3.children.map MCTSNode.prior).foldl (· + ·) 0) = 1) ∧
      ((((List.range T3.children.length).map
        (fun i => env0.powf (env0.rands i) (1 / cfg.dirichletAlpha))).foldl (· + ·) 0) ≠ 0)) ∧
    (((addDirichletNoise env0.powf env0.rands T3).children.map
      MCTSNode.prior).foldl (· + ·) 0) = 1 :=
  ⟨⟨by decide, by decide⟩,
    C10_addDirichletNoise_preserves_prior_sum env0.powf env0.rands T3 (by decide) (by decide)⟩

/-! ### Claim C7 (no-move result on an empty root) -/

/-- A node holding a position with no legal moves, and no children, still has
no children after `expand` (which merely marks it terminal). -/
theorem expand_children_of_no_moves (Z : Zobrist) (expf : ℚ → ℚ) (x : MCTSNode)
    (hgen : generate x.board false = []) (hch : x.children = []) :
    (expand Z expf x).children = [] := by
  cases x with
  | node d ch =>
    have hb : generate d.board false = [] := hgen
    have hc : ch = [] := hch
    show (expand Z expf (.node d ch)).children = []
    rw [expand]
    by_cases he : d.isExpanded
    · simpa [he, MCTSNode.children] using hc
    · simp [he, hb, MCTSNode.children, hc]

/-- C7: a search on a position with zero legal moves returns the explicit
no-move result `null` (here `none`), with zero simulations executed — the
empty-children check fires right after root expansion and before the
simulation loop.  (For a reused previous root the engine invariant is that a
root with the same fingerprint is the same position, hence also has no moves
and a childless tree, which is the second hypothesis.) -/
theorem C7_search_none_on_no_moves (env : SearchEnv) (prevRoot : Option MCTSNode)
    (b : Board) (sims : Option ℕ) (tl : Option ℚ)
    (hmoves : generate b false = [])
    (hprev : ∀ r, prevRoot = some r → r.board.hash = b.hash →
      r.children = [] ∧ generate r.board false = []) :
    search env prevRoot b sims tl = none ∧
    searchCore env prevRoot b sims tl = (none, 0) := by
  have hcore : searchCore env prevRoot b sims tl = (none, 0) := by
    have hroot : (expand env.Z env.expf (initRoot prevRoot b)).children = [] := by
      cases prevRoot with
      | none =>
        exact expand_children_of_no_moves _ _ _ (by exact hmoves) rfl
      | some r =>
        by_cases hh : r.board.hash = b.hash
        · have hinit : initRoot (some r) b = r := by simp [initRoot, hh]
          rw [hinit]
          rcases hprev r rfl hh with ⟨hch, hgen⟩
          exact expand_children_of_no_moves _ _ _ hgen hch
        · have hinit : initRoot (some r) b = freshNode b := by simp [initRoot, hh]
          rw [hinit]
          exact expand_children_of_no_moves _ _ _ (by exact hmoves) rfl
    have hEmpty : (expand env.Z env.expf (initRoot prevRoot b)).children.isEmpty = true := by
      rw [hroot]
      rfl
    simp only [searchCore, hEmpty, if_true]
  exact ⟨by rw [search, hcore], hcore⟩

/-- C7 witness: the empty board with a fresh engine. -/
theorem C7_search_none_on_no_moves_witness :
    generate Bempty false = [] ∧
    (search env0 none Bempty (some 100) (some 1000) = none ∧
      searchCore env0 none Bempty (some 100) (some 1000) = (none, 0)) :=
  ⟨by decide, C7_search_none_on_no_moves env0 none Bempty (some 100) (some 1000)
    (by decide) (fun r hr _ => Option.noConfusion hr)⟩

/-! ### Claim C8 (missing budget is not rejected) -/

unseal Rat.add Rat.mul Rat.inv Rat.sub in
/-- C8 counterexample: a fresh engine searching the initial position with
NEITHER a simulation cap NOR a time limit is not rejected: the call returns a
move (`isSome`) after executing zero simulations.  There is no synchronous
validation anywhere in `search`. -/
theorem C8_counterexample_missing_budget_not_rejected :
    (search env0 none Binit none none).isSome = true ∧
    (searchCore env0 none Binit none none).2 = 0 :=
  ⟨by decide, by decide⟩

/-- `pickMove` yields a `some` whenever the fallback and every candidate move
are `some`. -/
theorem pickMove_isSome (fb : Option Move) (hfb : fb.isSome = true) :
    ∀ (l : List (MCTSNode × ℚ)) (rand : ℚ), (∀ x ∈ l, x.1.move.isSome = true) →
      (pickMove fb rand l).isSome = true := by
  intro l
  induction l with
  | nil => intro rand _; exact hfb
  | cons cw rest ih =>
    intro rand hl
    cases cw with
    | mk c w =>
      rw [pickMove]
      by_cases hr : rand - w ≤ 0
      · rw [if_pos hr]
        exact hl (c, w) (List.mem_cons_self _ _)
      · rw [if_neg hr]
        exact ih (rand - w) (fun x hx => hl x (List.mem_cons_of_mem _ hx))

/-- A non-empty list has a last element, and it is a member. -/
theorem getLast?_spec : ∀ (l : List MCTSNode), l ≠ [] →
    ∃ a, l.getLast? = some a ∧ a ∈ l := by
  intro l
  induction l with
  | nil => intro h; exact absurd rfl h
  | cons x xs ih =>
    intro _
    cases xs with
    | nil => exact ⟨x, rfl, List.mem_singleton.mpr rfl⟩
    | cons y ys =>
      rcases ih (List.cons_ne_nil y ys) with ⟨a, ha, hmem⟩
      exact ⟨a, by rw [List.getLast?_cons_cons]; exact ha, List.mem_cons_of_mem x hmem⟩

/-- The children created by expanding a fresh node are exactly one node per
generated move, holding that move. -/
theorem expand_fresh_children (Z : Zobrist) (expf : ℚ → ℚ) (b : Board) :
    (expand Z expf (freshNode b)).children =
      ((generate b false).zip (getMovePolicy Z expf b (generate b false))).map
        (fun mp => newMCTSNode (makeMove Z b mp.1) (some mp.1) mp.2) := by
  show (expand Z expf (.node _ [])).children = _
  rw [expand]
  by_cases hm : (generate b false).isEmpty
  · have : generate b false = [] := by
      cases hg : generate b false with
      | nil => rfl
      | cons m ms => rw [hg] at hm; exact absurd hm (by simp)
    simp [this, MCTSNode.children]
  · simp [hm, MCTSNode.children]

/-- `getMovePolicy` returns one prior per move. -/
theorem getMovePolicy_length (Z : Zobrist) (expf : ℚ → ℚ) (b : Board) (moves : List Move) :
    (getMovePolicy Z expf b moves).length = moves.length := by
  simp [getMovePolicy]

/-- `addDirichletNoise` keeps the number of children. -/
theorem addDirichletNoise_children_length (powf : ℚ → ℚ → ℚ) (rands : ℕ → ℚ)
    (t : MCTSNode) :
    (addDirichletNoise powf rands t).children.length = t.children.length := by
  cases t with
  | node d ch =>
    rw [addDirichletNoise]
    by_cases he : ch.isEmpty
    · simp [he]
    · simp only [he, Bool.false_eq_true, if_false, MCTSNode.children]
      rw [List.length_map, List.length_zip]
      simp

/-- `addDirichletNoise` only reassigns priors: every resulting child carries
the move of one of the original children. -/
theorem addDirichletNoise_move_mem (powf : ℚ → ℚ → ℚ) (rands : ℕ → ℚ) (t : MCTSNode) :
    ∀ x ∈ (addDirichletNoise powf rands t).children, ∃ y ∈ t.children, x.move = y.move := by
  cases t with
  | node d ch =>
    rw [addDirichletNoise]
    by_cases he : ch.isEmpty
    · simp only [he, if_true]
      intro x hx
      exact ⟨x, hx, rfl⟩
    · simp only [he, Bool.false_eq_true, if_false, MCTSNode.children]
      intro x hx
      rcases List.mem_map.mp hx with ⟨cn, hcn, hx⟩
      rcases cn with ⟨c1, w⟩
      cases c1 with
      | node dc chc =>
        refine ⟨MCTSNode.node dc chc, (List.of_mem_zip hcn).1, ?_⟩
        rw [← hx]
        rfl

/-- At a non-zero temperature, `getBestMove` on a node with children whose
moves are all present returns a move. -/
theorem getBestMove_isSome (powf : ℚ → ℚ → ℚ) (rng : ℚ) (t : MCTSNode) (temp : ℚ)
    (htemp : temp ≠ 0) (hch : t.children ≠ [])
    (hmv : ∀ x ∈ t.children, x.move.isSome = true) :
    (getBestMove powf rng t temp).isSome = true := by
  rcases hch' : t.children with _ | ⟨c0, rest⟩
  · exact absurd hch' hch
  · rw [hch'] at hmv
    simp only [getBestMove, hch']
    rw [if_neg htemp]
    rcases getLast?_spec (c0 :: rest) (List.cons_ne_nil c0 rest) with ⟨last, hlast, hlmem⟩
    apply pickMove_isSome
    · rw [hlast]
      exact hmv last hlmem
    · intro x hx
      exact hmv x.1 (List.of_mem_zip hx).1

/-- C8 amended: with neither bound supplied (`simulations` and `timeLimit`
both `undefined`) and a fresh engine on a non-endgame position that has legal
moves, `search` is NOT rejected: the `for (let i = 0; i < undefined; ...)`
loop runs zero iterations (the comparison is false) and the call still
returns a move sampled from the unsimulated, noise-blended root. -/
theorem C8_amended_no_budget_runs_zero_sims (env : SearchEnv) (b : Board)
    (h1 : generate b false ≠ [])
    (h2 : cfg.endgamePieceThreshold ≤ (b.squares.filter (fun p => decide (p ≠ 0))).length) :
    (searchCore env none b none none).2 = 0 ∧
    (search env none b none none).isSome = true := by
  have hchildren : (expand env.Z env.expf (initRoot none b)).children ≠ [] := by
    show (expand env.Z env.expf (freshNode b)).children ≠ []
    rw [expand_fresh_children]
    intro hcontra
    have hlen := congrArg List.length hcontra
    rw [List.length_map, List.length_zip, getMovePolicy_length, min_self,
      List.length_nil] at hlen
    exact h1 (List.length_eq_zero.mp hlen)
  have hmvfresh : ∀ x ∈ (expand env.Z env.expf (freshNode b)).children,
      x.move.isSome = true := by
    rw [expand_fresh_children]
    intro x hx
    rcases List.mem_map.mp hx with ⟨mp, _, hx⟩
    subst hx
    rfl
  have hEmpty : (expand env.Z env.expf (initRoot none b)).children.isEmpty = false := by
    cases hg : (expand env.Z env.expf (initRoot none b)).children with
    | nil => exact absurd hg hchildren
    | cons m ms => rfl
  have hsims : ¬((b.squares.filter (fun p => decide (p ≠ 0))).length <
      cfg.endgamePieceThreshold) := not_lt.mpr h2
  have hroot2ne : (addDirichletNoise env.powf env.rands
      (expand env.Z env.expf (initRoot none b))).children ≠ [] := by
    intro hcontra
    have := congrArg List.length hcontra
    rw [addDirichletNoise_children_length, List.length_nil] at this
    exact hchildren (List.length_eq_zero.mp this)
  have hroot2mv : ∀ x ∈ (addDirichletNoise env.powf env.rands
      (expand env.Z env.expf (initRoot none b))).children, x.move.isSome = true := by
    intro x hx
    rcases addDirichletNoise_move_mem env.powf env.rands _ x hx with ⟨y, hy, hxy⟩
    rw [hxy]
    exact hmvfresh y hy
  have htemp : cfg.temperature ≠ 0 := by norm_num [cfg]
  constructor
  · simp only [searchCore, hEmpty, Bool.false_eq_true, if_false, hsims]
    rfl
  · rw [search]
    simp only [searchCore, hEmpty, Bool.false_eq_true, if_false, hsims]
    exact getBestMove_isSome env.powf env.rng _ cfg.temperature htemp hroot2ne hroot2mv

unseal Rat.add Rat.mul Rat.inv Rat.sub in
/-- C8 amended witness: the initial position (32 pieces, 20 moves). -/
theorem C8_amended_no_budget_runs_zero_sims_witness :
    generate Binit false ≠ [] ∧
    cfg.endgamePieceThreshold ≤
      (Binit.squares.filter (fun p => decide (p ≠ 0))).length ∧
    ((searchCore env0 none Binit none none).2 = 0 ∧
      (search env0 none Binit none none).isSome = true) :=
  ⟨by decide, by decide,
    C8_amended_no_budget_runs_zero_sims env0 Binit (by decide) (by decide)⟩

/-! ### Claim C9 (visit counts count exactly the simulations through a node) -/

/-- C9: starting a search from a tree in which a node (addressed by the child
index path `p`) has `visitCount = 0` — as every node of a freshly built root
tree does — its visit count after `n` completed simulations is non-decreasing
in `n` and equals EXACTLY the number of simulations among them whose recorded
selection path (the path `backpropagate` then walks) passed through that
node. -/
theorem C9_visitCount_counts_simulations (Z : Zobrist) (sqrtf expf : ℚ → ℚ)
    (evalf : Board → ℚ) (t0 : MCTSNode) (p : List ℕ)
    (h0 : visitCountAt t0 p = 0) (n : ℕ) :
    (∀ m1 m2, m1 ≤ m2 → m2 ≤ n →
      visitCountAt ((runSimulation Z sqrtf expf evalf)^[m1] t0) p ≤
        visitCountAt ((runSimulation Z sqrtf expf evalf)^[m2] t0) p) ∧
    visitCountAt ((runSimulation Z sqrtf expf evalf)^[n] t0) p =
      ((Finset.range n).filter (fun i =>
        p <+: (simStep Z sqrtf expf evalf
          ((runSimulation Z sqrtf expf evalf)^[i] t0)).2.1)).card := by
  constructor
  · intro m1 m2 h12 _
    exact iterate_visitCountAt_monotone Z sqrtf expf evalf t0 p h12
  · rw [iterate_visitCountAt, h0, add_zero]

/-- C9 witness: the fresh single-pawn root after 2 simulations (the first
visits the root only; the second expands it and walks into the first child). -/
theorem C9_visitCount_counts_simulations_witness :
    visitCountAt (freshNode B9) [] = 0 ∧
    ((∀ m1 m2, m1 ≤ m2 → m2 ≤ 2 →
      visitCountAt ((runSimulation Z0 env0.sqrtf env0.expf env0.evalf)^[m1]
        (freshNode B9)) [] ≤
        visitCountAt ((runSimulation Z0 env0.sqrtf env0.expf env0.evalf)^[m2]
          (freshNode B9)) []) ∧
    visitCountAt ((runSimulation Z0 env0.sqrtf env0.expf env0.evalf)^[2]
      (freshNode B9)) [] =
      ((Finset.range 2).filter (fun i =>
        [] <+: (simStep Z0 env0.sqrtf env0.expf env0.evalf
          ((runSimulation Z0 env0.sqrtf env0.expf env0.evalf)^[i]
            (freshNode B9))).2.1)).card) :=
  ⟨rfl, C9_visitCount_counts_simulations Z0 env0.sqrtf env0.expf env0.evalf
    (freshNode B9) [] rfl 2⟩

end LC0
